import Mathlib

/-!
Verification of the diff-batching / summarization pipeline of
`scripts/gitlab_ci_summarizer.py`.

Strings are modelled as `List Char`; the UTF-8 byte size of a string is the
sum of the UTF-8 sizes of its characters, exactly as Python's
`len(s.encode('utf-8'))` computes it.  Every function below is a direct
translation of the correspondingly named Python function; external
collaborators (the HTTP layer, `json.loads`) are passed in as explicit
function parameters, and fallible paths are modelled with `Option`/`Except`.
-/

namespace GitlabCISummarizer

/-! ## SizeGuard: `string_size_in_bytes`, `string_is_too_large` -/

/-- `MAX_RQC_INPUT_SIZE_BYTES = 50000` (50KB limit for RQC inputs). -/
def MAX_RQC_INPUT_SIZE_BYTES : Nat := 50000

/-- `string_size_in_bytes(string)`: `len(string.encode('utf-8'))`. -/
def string_size_in_bytes (s : List Char) : Nat :=
  (s.map Char.utf8Size).sum

/-- `string_is_too_large(string)`: byte size strictly above the 50KB limit. -/
def string_is_too_large (s : List Char) : Bool :=
  string_size_in_bytes s > MAX_RQC_INPUT_SIZE_BYTES

/-! ## Python string primitives used by the script

`pyStrip` is `str.strip()` (no argument: strips the characters for which
`str.isspace()` holds from both ends); `splitTab` is `str.split("\t")`;
`splitLinesPy` is `str.splitlines()` with Python's line-boundary set,
treating `\r\n` as a single boundary. -/

/-- The characters Python's `str.isspace()` (hence `str.strip()` and the
regex class `\s`) recognise. -/
def pyIsSpace (c : Char) : Bool :=
  (0x09 ≤ c.toNat && c.toNat ≤ 0x0d) || c.toNat = 0x20 ||
  (0x1c ≤ c.toNat && c.toNat ≤ 0x1f) || c.toNat = 0x85 || c.toNat = 0xa0 ||
  c.toNat = 0x1680 || (0x2000 ≤ c.toNat && c.toNat ≤ 0x200a) ||
  c.toNat = 0x2028 || c.toNat = 0x2029 || c.toNat = 0x202f ||
  c.toNat = 0x205f || c.toNat = 0x3000

/-- Python `str.strip()`. -/
def pyStrip (s : List Char) : List Char :=
  ((s.dropWhile pyIsSpace).reverse.dropWhile pyIsSpace).reverse

/-- Python `str.split("\t")`: cut at every tab, keeping empty fields. -/
def splitTab : List Char → List (List Char)
  | [] => [[]]
  | c :: r =>
    if c = '\t' then [] :: splitTab r
    else
      match splitTab r with
      | p :: ps => (c :: p) :: ps
      | [] => [[c]]

/-- Python's `str.splitlines()` line-boundary characters. -/
def isPyLineBreak (c : Char) : Bool :=
  c = '\n' || c = '\r' || c.toNat = 0x0b || c.toNat = 0x0c ||
  c.toNat = 0x1c || c.toNat = 0x1d || c.toNat = 0x1e ||
  c.toNat = 0x85 || c.toNat = 0x2028 || c.toNat = 0x2029

/-- Python `str.splitlines()`. -/
def splitLinesPy : List Char → List (List Char)
  | [] => []
  | [c] => if isPyLineBreak c then [[]] else [[c]]
  | c1 :: c2 :: r =>
    if c1 = '\r' ∧ c2 = '\n' then [] :: splitLinesPy r
    else if isPyLineBreak c1 then [] :: splitLinesPy (c2 :: r)
    else
      match splitLinesPy (c2 :: r) with
      | [] => [[c1]]
      | l :: ls => (c1 :: l) :: ls

/-! ## `simplify_file_diff`

The Python function is a single global regex substitution

  `re.sub(r'(@@.*?@@)(.*?)(?=(^diff --git|\Z))', r'\1\n{...}\n', s,`
  `       flags=re.DOTALL | re.MULTILINE)`

With `DOTALL` both `.*?` match newlines, so a match consists of
* group 1: from a literal `@@` to the *earliest* following `@@` (lazy),
* group 2: lazily extended to the earliest position that is the end of
  the string or a line start followed by `diff --git` (the lookahead),
and the whole match is replaced by group 1 followed by the fixed
placeholder line; the lookahead is not consumed, so scanning resumes at
the position where group 2 stopped.  The functions below implement
exactly this left-to-right scan. -/

/-- The replacement tail: newline, the fixed placeholder line, newline. -/
def placeholderText : List Char :=
  ("\n{Changes are too large to process and have been omitted}\n").data

/-- The file-diff boundary marker `diff --git` used by the lookahead. -/
def dgMarker : List Char := ("diff --git").data

/-- Earliest occurrence of `@@` in `t`: returns the part before it and the
part after it, i.e. `t = gap ++ '@'::'@'::rest` with `gap` minimal. -/
def findDAt : List Char → Option (List Char × List Char)
  | [] => none
  | [_] => none
  | c1 :: c2 :: r =>
    if c1 = '@' ∧ c2 = '@' then some ([], r)
    else (findDAt (c2 :: r)).map (fun p => (c1 :: p.1, p.2))

/-- Lazy group 2: split `s` at the earliest position that is the end of the
string, or a line start (previous character `prev` is a newline) where
`diff --git` begins.  Returns `(group2, tail)` with `s = group2 ++ tail`. -/
def findG2 (prev : Char) : List Char → (List Char × List Char)
  | [] => ([], [])
  | c :: r =>
    if prev = '\n' ∧ dgMarker.isPrefixOf (c :: r) then ([], c :: r)
    else
      let p := findG2 c r
      (c :: p.1, p.2)

/-- One fuelled pass of the substitution scan.  `fuel` only guarantees
termination; any `fuel > s.length` computes the full scan
(`scanSimplifyF_fuel` below). -/
def scanSimplifyF : Nat → List Char → List Char
  | 0, _ => []
  | _ + 1, [] => []
  | _ + 1, [c] => [c]
  | f + 1, c1 :: c2 :: r =>
    if c1 = '@' ∧ c2 = '@' then
      match findDAt r with
      | some (gap, rest) =>
        ('@' :: '@' :: gap) ++ ('@' :: '@' :: (placeholderText ++
          scanSimplifyF f (findG2 '@' rest).2))
      | none => '@' :: scanSimplifyF f (c2 :: r)
    else c1 :: scanSimplifyF f (c2 :: r)

/-- `simplify_file_diff(file_diff)`: the regex substitution described above. -/
def simplify_file_diff (s : List Char) : List Char :=
  scanSimplifyF (s.length + 1) s

/-! ## `split_diff`

`re.split(r'(?=^diff --git)', diff, flags=re.MULTILINE)` cuts the text at
every zero-width match of the lookahead, i.e. at every position that is the
start of the string or directly after a `'\n'` and where `diff --git`
begins; then each block is `strip()`ped and empty blocks are dropped. -/

/-- The cut phase of `re.split(r'(?=^diff --git)', s, flags=re.MULTILINE)`.
`atLS` says whether the current position is a line start (string start or
preceded by `'\n'`). -/
def splitDGCore : List Char → Bool → List (List Char)
  | [], _ => [[]]
  | c :: r, atLS =>
    match splitDGCore r (c = '\n'), atLS && dgMarker.isPrefixOf (c :: r) with
    | p :: ps, true => [] :: (c :: p) :: ps
    | p :: ps, false => (c :: p) :: ps
    | [], _ => [[]]

/-- Does any position of `s` (position 0 under line-start status `atLS`,
later positions after a `'\n'`) start a `diff --git` line?  Used to reason
about where `splitDGCore` cuts. -/
def hasDGFrom : List Char → Bool → Bool
  | [], _ => false
  | c :: r, atLS => (atLS && dgMarker.isPrefixOf (c :: r)) || hasDGFrom r (c = '\n')

/-- `split_diff(diff)`: split at per-file boundaries, strip each block,
drop blocks that are empty after stripping. -/
def split_diff (diff : List Char) : List (List Char) :=
  ((splitDGCore diff true).map pyStrip).filter (fun b => !b.isEmpty)

/-! ## `prepare_file_diffs` (the batch packer) -/

/-- The per-segment degradation step of `prepare_file_diffs`:
`file_diff_simplified = simplify_file_diff(file_diff)` when the segment
alone is too large, the segment itself otherwise. -/
def file_diff_simplified (file_diff : List Char) : List Char :=
  if string_is_too_large file_diff then simplify_file_diff file_diff else file_diff

/-- One iteration of the `prepare_file_diffs` loop body: the accumulator is
`(joint_diffs, current_joint_diff)`. -/
def prepStep (acc : List (List Char) × List Char) (file_diff : List Char) :
    List (List Char) × List Char :=
  let fds := file_diff_simplified file_diff
  if string_is_too_large (acc.2 ++ fds) then
    (acc.1 ++ (if acc.2 = [] then [] else [acc.2]), fds)
  else (acc.1, acc.2 ++ fds)

/-- `prepare_file_diffs(file_diffs)`: greedy packing; after the last segment
the current accumulator is appended unconditionally (the loop body's
`index == len(file_diffs) - 1` flush), and an empty input never enters the
loop, so it yields no batches. -/
def prepare_file_diffs (file_diffs : List (List Char)) : List (List Char) :=
  match file_diffs with
  | [] => []
  | _ :: _ =>
    let p := file_diffs.foldl prepStep ([], [])
    p.1 ++ [p.2]

/-! ## `validate_comment_size` -/

/-- The fixed truncation suffix appended by `validate_comment_size`. -/
def truncationSuffix : List Char :=
  ("\n\n... (truncated due to size limit)").data

/-- `validate_comment_size(comment_body)`: if the UTF-8 byte size exceeds
the 1MB GitLab limit, keep the first 1,048,000 *characters* (Python slicing
`comment_body[:1048000]` counts code points, not bytes) and append the
fixed suffix. -/
def validate_comment_size (comment_body : List Char) : List Char :=
  if string_size_in_bytes comment_body > 1048576 then
    comment_body.take 1048000 ++ truncationSuffix
  else comment_body

/-! ## `strip_response` / `parse_json_response` -/

/-- JSON values, as the opaque structured result of `json.loads`. -/
inductive Json where
  | null : Json
  | bool : Bool → Json
  | num : Int → Json
  | str : List Char → Json
  | arr : List Json → Json
  | obj : List (List Char × Json) → Json

/-- The backtick character (written via its code point to keep the source
free of literal backticks). -/
def backtickChar : Char := Char.ofNat 96

/-- Three backticks: the code-fence delimiter. -/
def ticks3 : List Char := [backtickChar, backtickChar, backtickChar]

/-- The character class `[a-zA-Z0-9{}]` of the fence-opening regex. -/
def isFenceInfoChar (c : Char) : Bool :=
  c.isAlphanum || c = '{' || c = '}'

/-- `strip_response(response)`: strip whitespace; if the result starts with
a code fence, apply `re.sub(r'^```[a-zA-Z0-9{}]*\s*\n?', '', ...)` (all
greedy, so it removes the fence, the info word and all following
whitespace); if the result ends with a fence, drop the last 3 characters. -/
def strip_response (response : List Char) : List Char :=
  let r1 := pyStrip response
  let r2 :=
    if ticks3.isPrefixOf r1 then
      ((r1.drop 3).dropWhile isFenceInfoChar).dropWhile pyIsSpace
    else r1
  if ticks3.isSuffixOf r2 then r2.take (r2.length - 3) else r2

/-- `validate_encoding(text)`: `text.encode('utf-8', errors='replace')`
followed by decoding.  A Lean `Char` is always a Unicode scalar value, for
which this round trip is the identity. -/
def validate_encoding (text : List Char) : List Char := text

/-- `sanitize_for_json(text)`: returns `text` unchanged when `json.dumps`
succeeds, which it does for every sequence of Unicode scalar values. -/
def sanitize_for_json (text : List Char) : List Char := text

/-- `parse_json_response(response)`; `loads` is the `json.loads`
collaborator, returning `none` when it would raise.  Every failure path
returns the empty object `{}`. -/
def parse_json_response (loads : List Char → Option Json) (response : List Char) : Json :=
  let r := strip_response response
  if r = [] then .obj []
  else
    match loads (sanitize_for_json (validate_encoding r)) with
    | some v => v
    | none => .obj []

/-! ## `poll_rqc_execution` / `run_rqc` (the remote-job state machine)

A poll response is modelled by what the code inspects: `invalid` covers a
falsy body or one without a `progress` field (the code logs and returns
`None`); `withProgress st res` is a body whose `progress` object has
optional `status` `st` (`none` makes `["status"]` raise a `KeyError`) and
whose optional top-level `result` is `res`. -/

def RQC_STATUS_COMPLETED : List Char := ("COMPLETED").data

def RQC_STATUS_FAILED : List Char := ("FAILED").data

def RQC_TIMEOUT_MINUTES : Nat := 15

def RQC_SECONDS_TO_WAIT : Nat := 10

/-- `int((RQC_TIMEOUT_MINUTES * 60) / RQC_SECONDS_TO_WAIT) = 90`. -/
def RQC_TIMEOUT_LIMIT : Nat := (RQC_TIMEOUT_MINUTES * 60) / RQC_SECONDS_TO_WAIT

inductive RQCResponse where
  | invalid : RQCResponse
  | withProgress : Option (List Char) → Option Json → RQCResponse

/-- How a poll loop or a run can fail: an uncaught `KeyError` (missing
`status` under `progress`), a `StackSpotAIError` (status FAILED), or an
`RQCExecutionTimeoutError`. -/
inductive RQCError where
  | keyError : RQCError
  | jobFailed : RQCError
  | timeout : RQCError
deriving DecidableEq

/-- The polling loop of `poll_rqc_execution`: `responses n` is the body the
n-th HTTP poll returns.  `.ok none` models `return None`. -/
def pollAux (responses : Nat → RQCResponse) : Nat → Nat → Except RQCError (Option Json)
  | 0, _ => .error .timeout
  | fuel + 1, attempt =>
    match responses attempt with
    | .invalid => .ok none
    | .withProgress none _ => .error .keyError
    | .withProgress (some status) result =>
      if status = RQC_STATUS_COMPLETED then
        match result with
        | some r => .ok (some r)
        | none => .ok none
      else if status = RQC_STATUS_FAILED then .error .jobFailed
      else pollAux responses fuel (attempt + 1)

/-- `poll_rqc_execution(execution_id)`: up to `RQC_TIMEOUT_LIMIT = 90`
attempts, then `RQCExecutionTimeoutError`. -/
def poll_rqc_execution (responses : Nat → RQCResponse) : Except RQCError (Option Json) :=
  pollAux responses RQC_TIMEOUT_LIMIT 0

/-- The retry loop of `run_rqc`: `cycles a` is the poll-response sequence
seen by the a-th submit+poll cycle.  Only a timeout is retried, and only
while attempts remain (`attempt < retries`). -/
def runAux (cycles : Nat → Nat → RQCResponse) : Nat → Nat → Except RQCError (Option Json)
  | 0, _ => .error .timeout
  | fuel + 1, attempt =>
    match poll_rqc_execution (cycles attempt) with
    | .ok r => .ok r
    | .error .timeout =>
      if fuel = 0 then .error .timeout else runAux cycles fuel (attempt + 1)
    | .error e => .error e

/-- `run_rqc(qc_slug, input_data, retries)`: `retries + 1` full cycles. -/
def run_rqc (cycles : Nat → Nat → RQCResponse) (retries : Nat) : Except RQCError (Option Json) :=
  runAux cycles (retries + 1) 0

/-! ## `stackspot_make_request` -/

/-- Outcome of one attempt (credential exchange, HTTP call and
`raise_for_status` together): a parsed JSON body, or an
`requests.exceptions.HTTPError` carrying the response status code. -/
inductive ReqOutcome where
  | success : Json → ReqOutcome
  | httpError : Nat → ReqOutcome

/-- The status codes `[401, 403, 500, 503]` the except-clause retries on. -/
def retryableStatus (s : Nat) : Bool :=
  s = 401 || s = 403 || s = 500 || s = 503

/-- The retry loop of `stackspot_make_request`; also records the sleeps
performed (`sleep(2**(attempt+1))` before each retry), in order. -/
def makeReqAux (attempts : Nat → ReqOutcome) : Nat → Nat → List Nat →
    Except Nat Json × List Nat
  | 0, _, sleeps => (.error 0, sleeps)
  | fuel + 1, attempt, sleeps =>
    match attempts attempt with
    | .success v => (.ok v, sleeps)
    | .httpError s =>
      if fuel ≠ 0 ∧ retryableStatus s then
        makeReqAux attempts fuel (attempt + 1) (sleeps ++ [2 ^ (attempt + 1)])
      else (.error s, sleeps)

/-- `stackspot_make_request(method, url, body, retries)`: `retries + 1`
attempts; an `HTTPError` is re-raised unless attempts remain and its
status code is retryable.  Returns the result together with the list of
backoff sleeps performed. -/
def stackspot_make_request (attempts : Nat → ReqOutcome) (retries : Nat) :
    Except Nat Json × List Nat :=
  makeReqAux attempts (retries + 1) 0 []

/-! ## `_parse_name_status` / `filter_changed_files` -/

/-- A parsed change record, modelling the Python dict by the keys the code
reads: `status` is always present; a rename record has `old`/`new` and no
`path`; a generic record has `path` and no `old`/`new`.  `info.get(k, "")`
is modelled by `(... ).getD []`. -/
structure FileInfo where
  status : List Char
  old : Option (List Char)
  new : Option (List Char)
  path : Option (List Char)
deriving DecidableEq

/-- `should_include(path)`: the default include predicate accepts all paths. -/
def should_include (_path : List Char) : Bool := true

/-- Parse one line of `git diff --name-status` output
(the loop body of `_parse_name_status`); `none` means the line is skipped. -/
def parseNameStatusLine (line : List Char) : Option FileInfo :=
  match splitTab line with
  | [] => none
  | [_] => none
  | [status, path] => some ⟨status, none, none, some path⟩
  | status :: old :: new :: _ =>
    if status.head? = some 'R' then some ⟨status, some old, some new, none⟩
    else some ⟨status, none, none, some old⟩

/-- `_parse_name_status(output)`. -/
def _parse_name_status (output : List Char) : List FileInfo :=
  (splitLinesPy (pyStrip output)).filterMap parseNameStatusLine

/-- The per-record decision of `filter_changed_files`: the path appended to
`allowed` for this record, if any.  A record whose status starts with `R`
contributes its `new` path when the predicate accepts `old` or `new`; any
other record contributes its `path` when the predicate accepts it. -/
def includedPath (include_func : List Char → Bool) (info : FileInfo) :
    Option (List Char) :=
  if info.status.head? = some 'R' then
    if include_func (info.old.getD []) || include_func (info.new.getD []) then
      some (info.new.getD [])
    else none
  else
    if include_func (info.path.getD []) then some (info.path.getD []) else none

/-- The dedup pass of `filter_changed_files`: keep the first occurrence of
each path, tracking the `seen` set. -/
def dedupAux : List (List Char) → List (List Char) → List (List Char)
  | [], _ => []
  | p :: rest, seen =>
    if p ∈ seen then dedupAux rest seen else p :: dedupAux rest (p :: seen)

/-- `filter_changed_files(file_statuses, include_func)`. -/
def filter_changed_files (file_statuses : List FileInfo)
    (include_func : List Char → Bool) : List (List Char) :=
  dedupAux (file_statuses.filterMap (includedPath include_func)) []

/-- The batch invariant of claim C1: a batch is non-empty, and if its byte
size exceeds the ceiling it is a single segment's degraded form. -/
def goodBatch (fds : List (List Char)) (b : List Char) : Prop :=
  b ≠ [] ∧ (string_is_too_large b = true →
    ∃ fd ∈ fds, b = file_diff_simplified fd)

/-- Index of the first occurrence of `p` in a list of paths (the list's
length if absent); used to state that `filter_changed_files` preserves
first-seen order. -/
def firstIdx (p : List Char) : List (List Char) → Nat
  | [] => 0
  | q :: rest => if q = p then 0 else firstIdx p rest + 1

/-- A poll response that carries a non-terminal status: it has the
`progress.status` structure and the status is neither `COMPLETED` nor
`FAILED` (the loop sleeps and polls again). -/
def pendingResp (r : RQCResponse) : Prop :=
  ∃ st res, r = RQCResponse.withProgress (some st) res ∧
    st ≠ RQC_STATUS_COMPLETED ∧ st ≠ RQC_STATUS_FAILED

/-! ## Helper lemmas: byte sizes -/

theorem string_size_in_bytes_append (a b : List Char) :
    string_size_in_bytes (a ++ b) = string_size_in_bytes a + string_size_in_bytes b := by
  simp [string_size_in_bytes]

theorem string_size_in_bytes_replicate (n : Nat) (c : Char) :
    string_size_in_bytes (List.replicate n c) = n * c.utf8Size := by
  simp [string_size_in_bytes, List.map_replicate]

theorem string_size_in_bytes_ascii (s : List Char) (h : ∀ c ∈ s, c.utf8Size = 1) :
    string_size_in_bytes s = s.length := by
  induction s with
  | nil => rfl
  | cons c r ih =>
    have hc : c.utf8Size = 1 := h c (List.mem_cons_self c r)
    have hr := ih (fun x hx => h x (List.mem_cons_of_mem c hx))
    simp [string_size_in_bytes] at hr ⊢
    omega

/-! ## Claim C3: `validate_comment_size` -/

/-- Claim C3, counterexample.  A comment of 350,000 three-byte characters
(1,050,000 bytes, above the 1,048,576-byte ceiling) is "truncated" by
`validate_comment_size`, yet the result still exceeds the ceiling: Python's
`comment_body[:1048000]` keeps the first 1,048,000 *characters*, which here
is the whole comment, so only the suffix is added.  This refutes both "the
first 1,048,000 bytes" and "the result stays within the ceiling". -/
theorem validate_comment_size_c3_counterexample :
    string_size_in_bytes (List.replicate 350000 '€') > 1048576 ∧
    string_size_in_bytes (validate_comment_size (List.replicate 350000 '€')) > 1048576 := by
  have hsz : string_size_in_bytes (List.replicate 350000 '€') = 1050000 := by
    rw [string_size_in_bytes_replicate]
    norm_num [show ('€' : Char).utf8Size = 3 from by decide]
  constructor
  · omega
  · have ht : (List.replicate 350000 '€').take 1048000 = List.replicate 350000 '€' :=
      List.take_of_length_le (by rw [List.length_replicate]; omega)
    have hc : string_size_in_bytes (List.replicate 350000 '€') > 1048576 := by omega
    rw [validate_comment_size, if_pos hc, ht, string_size_in_bytes_append, hsz]
    omega

/-- Claim C3 (amended): for every comment whose UTF-8 byte size exceeds
1,048,576, `validate_comment_size` returns the first 1,048,000
*characters* of the comment followed by the fixed truncation suffix; when
every retained character is a single UTF-8 byte (in particular for ASCII
comments) the result stays within the 1,048,576-byte ceiling; every
comment at or under the ceiling is returned unchanged. -/
theorem validate_comment_size_spec (s : List Char) :
    (string_size_in_bytes s ≤ 1048576 → validate_comment_size s = s) ∧
    (string_size_in_bytes s > 1048576 →
      validate_comment_size s = s.take 1048000 ++ truncationSuffix) ∧
    (string_size_in_bytes s > 1048576 → (∀ c ∈ s, c.utf8Size = 1) →
      string_size_in_bytes (validate_comment_size s) ≤ 1048576) := by
  refine ⟨fun h => ?_, fun h => ?_, fun h hascii => ?_⟩
  · have hc : ¬ string_size_in_bytes s > 1048576 := by omega
    rw [validate_comment_size, if_neg hc]
  · have hc : string_size_in_bytes s > 1048576 := h
    rw [validate_comment_size, if_pos hc]
  · have hc : string_size_in_bytes s > 1048576 := h
    rw [validate_comment_size, if_pos hc, string_size_in_bytes_append]
    have htake : string_size_in_bytes (s.take 1048000) ≤ 1048000 := by
      rw [string_size_in_bytes_ascii _ (fun c hc => hascii c (List.mem_of_mem_take hc)),
        List.length_take]
      omega
    have hsuf : string_size_in_bytes truncationSuffix = 35 := by decide
    omega

/-- Claim C3, witness: a small comment is returned unchanged; an ASCII
comment one byte over the ceiling is truncated to its first 1,048,000
characters plus the suffix and the result is within the ceiling. -/
theorem validate_comment_size_spec_witness :
    validate_comment_size (List.replicate 2 'a') = List.replicate 2 'a' ∧
    validate_comment_size (List.replicate 1048577 'a') =
      (List.replicate 1048577 'a').take 1048000 ++ truncationSuffix ∧
    string_size_in_bytes (validate_comment_size (List.replicate 1048577 'a')) ≤ 1048576 := by
  have h1 : string_size_in_bytes (List.replicate 2 'a') = 2 := by
    rw [string_size_in_bytes_replicate]; decide
  have h2 : string_size_in_bytes (List.replicate 1048577 'a') = 1048577 := by
    rw [string_size_in_bytes_replicate]
    norm_num [show ('a' : Char).utf8Size = 1 from by decide]
  have hmem : ∀ c ∈ List.replicate 1048577 'a', c.utf8Size = 1 := by
    intro c hc
    rw [List.eq_of_mem_replicate hc]
    decide
  exact ⟨(validate_comment_size_spec _).1 (by omega),
    (validate_comment_size_spec _).2.1 (by omega),
    (validate_comment_size_spec _).2.2 (by omega) hmem⟩

/-! ## Claim C8: `stackspot_make_request` retry policy -/

theorem makeReqAux_succ (attempts : Nat → ReqOutcome) (f attempt : Nat) (sleeps : List Nat) :
    makeReqAux attempts (f + 1) attempt sleeps =
      match attempts attempt with
      | .success v => (.ok v, sleeps)
      | .httpError s =>
        if f ≠ 0 ∧ retryableStatus s then
          makeReqAux attempts f (attempt + 1) (sleeps ++ [2 ^ (attempt + 1)])
        else (.error s, sleeps) := rfl

/-- Claim C8: with the default budget of 3 retries, `stackspot_make_request`
returns a success immediately; propagates an HTTP error with a
non-retryable status code at once without sleeping; after a retryable
status it sleeps `2^(attempt+1)` seconds and retries, so a success on the
second attempt is returned after the single backoff sleep of 2 seconds;
and four consecutive retryable errors exhaust the budget: the fourth error
propagates after exactly the three backoff sleeps 2, 4, 8. -/
theorem stackspot_make_request_spec (attempts : Nat → ReqOutcome) :
    (∀ v, attempts 0 = .success v → stackspot_make_request attempts 3 = (.ok v, [])) ∧
    (∀ s, attempts 0 = .httpError s → retryableStatus s = false →
      stackspot_make_request attempts 3 = (.error s, [])) ∧
    (∀ s v, attempts 0 = .httpError s → retryableStatus s = true → attempts 1 = .success v →
      stackspot_make_request attempts 3 = (.ok v, [2])) ∧
    (∀ s0 s1 s2 s3, attempts 0 = .httpError s0 → retryableStatus s0 = true →
      attempts 1 = .httpError s1 → retryableStatus s1 = true →
      attempts 2 = .httpError s2 → retryableStatus s2 = true →
      attempts 3 = .httpError s3 →
      stackspot_make_request attempts 3 = (.error s3, [2, 4, 8])) := by
  refine ⟨fun v h0 => ?_, fun s h0 hr => ?_, fun s v h0 hr h1 => ?_,
    fun s0 s1 s2 s3 h0 hr0 h1 hr1 h2 hr2 h3 => ?_⟩
  · rw [stackspot_make_request, makeReqAux_succ, h0]
  · rw [stackspot_make_request, makeReqAux_succ, h0]
    simp [hr]
  · rw [stackspot_make_request, makeReqAux_succ, h0]
    simp only [hr, ne_eq, OfNat.ofNat_ne_zero, not_false_eq_true, and_self, if_true]
    rw [makeReqAux_succ, h1]
    norm_num
  · rw [stackspot_make_request, makeReqAux_succ, h0]
    simp only [hr0, ne_eq, OfNat.ofNat_ne_zero, not_false_eq_true, and_self, if_true]
    rw [makeReqAux_succ, h1]
    simp only [hr1, ne_eq, OfNat.ofNat_ne_zero, not_false_eq_true, and_self, if_true]
    rw [makeReqAux_succ, h2]
    simp only [hr2, ne_eq, OfNat.ofNat_ne_zero, not_false_eq_true, and_self, if_true]
    rw [makeReqAux_succ, h3]
    norm_num

/-- Claim C8, witness: one retryable 500, then success, yields the success
after a single 2-second sleep. -/
theorem stackspot_make_request_spec_witness :
    stackspot_make_request
      (fun n => if n = 0 then ReqOutcome.httpError 500 else ReqOutcome.success Json.null) 3 =
      (.ok Json.null, [2]) :=
  (stackspot_make_request_spec _).2.2.1 500 Json.null rfl rfl rfl

/-! ## Claims C2 and C4: `poll_rqc_execution` and `run_rqc` -/

theorem pollAux_succ (responses : Nat → RQCResponse) (f attempt : Nat) :
    pollAux responses (f + 1) attempt =
      match responses attempt with
      | .invalid => .ok none
      | .withProgress none _ => .error .keyError
      | .withProgress (some status) result =>
        if status = RQC_STATUS_COMPLETED then
          match result with
          | some r => .ok (some r)
          | none => .ok none
        else if status = RQC_STATUS_FAILED then .error .jobFailed
        else pollAux responses f (attempt + 1) := rfl

theorem runAux_succ (cycles : Nat → Nat → RQCResponse) (f attempt : Nat) :
    runAux cycles (f + 1) attempt =
      match poll_rqc_execution (cycles attempt) with
      | .ok r => .ok r
      | .error .timeout =>
        if f = 0 then .error .timeout else runAux cycles f (attempt + 1)
      | .error e => .error e := rfl

/-- If every response from attempt `a` on (for `f` attempts) is
non-terminal, the poll loop exhausts its fuel with a timeout. -/
theorem pollAux_timeout (responses : Nat → RQCResponse) (f : Nat) :
    ∀ a, (∀ i, i < f → pendingResp (responses (a + i))) →
      pollAux responses f a = .error .timeout := by
  induction f with
  | zero => intro a _; rfl
  | succ f ih =>
    intro a h
    obtain ⟨st, res, heq, hc, hf⟩ := h 0 (Nat.succ_pos f)
    rw [Nat.add_zero] at heq
    rw [pollAux_succ, heq]
    simp only [if_neg hc, if_neg hf]
    exact ih (a + 1) (fun i hi => by
      have := h (i + 1) (by omega)
      rwa [show a + (i + 1) = a + 1 + i by omega] at this)

/-- Skipping a pending prefix: after `k` non-terminal responses the loop
continues at attempt `a + k` with `k` fewer units of fuel. -/
theorem pollAux_skip (responses : Nat → RQCResponse) (k : Nat) :
    ∀ f a, k ≤ f → (∀ i, i < k → pendingResp (responses (a + i))) →
      pollAux responses f a = pollAux responses (f - k) (a + k) := by
  induction k with
  | zero => intro f a _ _; rfl
  | succ k ih =>
    intro f a hk h
    obtain ⟨f', rfl⟩ : ∃ f', f = f' + 1 := ⟨f - 1, by omega⟩
    obtain ⟨st, res, heq, hc, hf⟩ := h 0 (Nat.succ_pos k)
    rw [Nat.add_zero] at heq
    rw [pollAux_succ, heq]
    simp only [if_neg hc, if_neg hf]
    have := ih f' (a + 1) (by omega) (fun i hi => by
      have := h (i + 1) (by omega)
      rwa [show a + (i + 1) = a + 1 + i by omega] at this)
    rw [this, show f' + 1 - (k + 1) = f' - k by omega, show a + 1 + k = a + (k + 1) by omega]

/-- Claim C2: 90 consecutive non-terminal poll responses make
`poll_rqc_execution` raise the timeout error; `run_rqc` with its default
retry budget 1 retries only on that timeout, so after a first all-pending
cycle the caller sees exactly the outcome of the second full cycle — in
particular two all-pending cycles produce the timeout failure — while a
FAILED status (even after a pending prefix) raises the job-failed error at
once and any non-timeout error from a cycle propagates without retry. -/
theorem run_rqc_retry_spec :
    (∀ responses, (∀ i, i < RQC_TIMEOUT_LIMIT → pendingResp (responses i)) →
      poll_rqc_execution responses = .error .timeout) ∧
    (∀ cycles, (∀ i, i < RQC_TIMEOUT_LIMIT → pendingResp (cycles 0 i)) →
      run_rqc cycles 1 = poll_rqc_execution (cycles 1)) ∧
    (∀ cycles, (∀ i, i < RQC_TIMEOUT_LIMIT → pendingResp (cycles 0 i)) →
      (∀ i, i < RQC_TIMEOUT_LIMIT → pendingResp (cycles 1 i)) →
      run_rqc cycles 1 = .error .timeout) ∧
    (∀ responses k res, k < RQC_TIMEOUT_LIMIT →
      (∀ i, i < k → pendingResp (responses i)) →
      responses k = RQCResponse.withProgress (some RQC_STATUS_FAILED) res →
      poll_rqc_execution responses = .error .jobFailed) ∧
    (∀ cycles e, e ≠ RQCError.timeout → poll_rqc_execution (cycles 0) = .error e →
      run_rqc cycles 1 = .error e) := by
  have hpoll : ∀ responses, (∀ i, i < RQC_TIMEOUT_LIMIT → pendingResp (responses i)) →
      poll_rqc_execution responses = .error .timeout := by
    intro responses h
    exact pollAux_timeout responses RQC_TIMEOUT_LIMIT 0
      (fun i hi => by simpa using h i hi)
  refine ⟨hpoll, ?_, ?_, ?_, ?_⟩
  · intro cycles h0
    rw [run_rqc, runAux_succ, hpoll _ h0]
    cases hp : poll_rqc_execution (cycles 1) with
    | ok r => rw [runAux_succ, hp]; rfl
    | error e =>
      cases e with
      | keyError => rw [runAux_succ, hp]; rfl
      | jobFailed => rw [runAux_succ, hp]; rfl
      | timeout => rw [runAux_succ, hp]; rfl
  · intro cycles h0 h1
    have s1 : run_rqc cycles 1 = runAux cycles 1 1 := by
      rw [run_rqc, runAux_succ, hpoll _ h0]; rfl
    rw [s1, runAux_succ, hpoll _ h1]; rfl
  · intro responses k res hk hpre hfail
    rw [poll_rqc_execution,
      pollAux_skip responses k RQC_TIMEOUT_LIMIT 0 (by omega)
        (fun i hi => by simpa using hpre i hi)]
    obtain ⟨f', hf'⟩ : ∃ f', RQC_TIMEOUT_LIMIT - k = f' + 1 := ⟨RQC_TIMEOUT_LIMIT - k - 1, by omega⟩
    rw [hf', pollAux_succ, Nat.zero_add, hfail]
    have hne : RQC_STATUS_FAILED ≠ RQC_STATUS_COMPLETED := by decide
    simp [hne]
  · intro cycles e he hp
    rw [run_rqc, runAux_succ, hp]
    cases e with
    | keyError => rfl
    | jobFailed => rfl
    | timeout => exact absurd rfl he

/-- Claim C2, witness: a constant RUNNING response makes `run_rqc` with
budget 1 end in the timeout error, and a first FAILED response makes a
poll fail with the job-failed error. -/
theorem run_rqc_retry_spec_witness :
    run_rqc (fun _ _ => RQCResponse.withProgress (some (("RUNNING").data)) none) 1 =
      .error .timeout ∧
    poll_rqc_execution (fun _ => RQCResponse.withProgress (some RQC_STATUS_FAILED) none) =
      .error .jobFailed := by
  constructor
  · exact run_rqc_retry_spec.2.2.1 _
      (fun i _ => ⟨("RUNNING").data, none, rfl, by decide, by decide⟩)
      (fun i _ => ⟨("RUNNING").data, none, rfl, by decide, by decide⟩)
  · exact run_rqc_retry_spec.2.2.2.1 _ 0 none (by decide)
      (fun i hi => absurd hi (by omega)) rfl

/-- Claim C4, counterexample.  A poll response without the expected
`progress`/`status` structure does NOT make `poll_rqc_execution` fail: the
code logs and returns `None`, which the loop reports as a successful
result; likewise a COMPLETED response without a `result` field returns
`None` instead of failing. -/
theorem poll_rqc_execution_c4_counterexample :
    poll_rqc_execution (fun _ => RQCResponse.invalid) = .ok none ∧
    poll_rqc_execution (fun _ => RQCResponse.withProgress (some RQC_STATUS_COMPLETED) none) =
      .ok none ∧
    ∀ e, poll_rqc_execution (fun _ => RQCResponse.invalid) ≠ .error e := by
  have h1 : poll_rqc_execution (fun _ => RQCResponse.invalid) = .ok none := rfl
  exact ⟨h1, rfl, fun e h => by rw [h1] at h; exact Except.noConfusion h⟩

/-- Claim C4 (amended): after any prefix of non-terminal responses, a poll
response lacking the `progress`/`status` structure makes
`poll_rqc_execution` return `None` as a non-error result (after logging),
and a COMPLETED response lacking the `result` field likewise returns
`None`; only a `progress` object that is present but lacks the `status`
key fails (with an uncaught `KeyError`); in the COMPLETED-with-result case
the `result` field is returned. -/
theorem poll_rqc_execution_result_spec (responses : Nat → RQCResponse) (k : Nat)
    (hk : k < RQC_TIMEOUT_LIMIT) (hpre : ∀ i, i < k → pendingResp (responses i)) :
    (responses k = RQCResponse.invalid → poll_rqc_execution responses = .ok none) ∧
    (∀ res, responses k = RQCResponse.withProgress none res →
      poll_rqc_execution responses = .error .keyError) ∧
    (responses k = RQCResponse.withProgress (some RQC_STATUS_COMPLETED) none →
      poll_rqc_execution responses = .ok none) ∧
    (∀ r, responses k = RQCResponse.withProgress (some RQC_STATUS_COMPLETED) (some r) →
      poll_rqc_execution responses = .ok (some r)) := by
  have hskip : poll_rqc_execution responses = pollAux responses (RQC_TIMEOUT_LIMIT - k) k := by
    rw [poll_rqc_execution, pollAux_skip responses k RQC_TIMEOUT_LIMIT 0 (by omega)
      (fun i hi => by simpa using hpre i hi), Nat.zero_add]
  obtain ⟨f', hf'⟩ : ∃ f', RQC_TIMEOUT_LIMIT - k = f' + 1 :=
    ⟨RQC_TIMEOUT_LIMIT - k - 1, by omega⟩
  rw [hskip, hf']
  refine ⟨fun h => ?_, fun res h => ?_, fun h => ?_, fun r h => ?_⟩
  · rw [pollAux_succ, h]
  · rw [pollAux_succ, h]
  · rw [pollAux_succ, h]; rfl
  · rw [pollAux_succ, h]; rfl

/-- Claim C4, witness: an immediately COMPLETED response carrying a result
returns that result. -/
theorem poll_rqc_execution_result_spec_witness :
    poll_rqc_execution
      (fun _ => RQCResponse.withProgress (some RQC_STATUS_COMPLETED) (some Json.null)) =
      .ok (some Json.null) :=
  (poll_rqc_execution_result_spec _ 0 (by decide)
    (fun i hi => absurd hi (by omega))).2.2.2 Json.null rfl

/-! ## Claim C9: `filter_changed_files` -/

theorem dedupAux_cons (a : List Char) (rest seen : List (List Char)) :
    dedupAux (a :: rest) seen =
      if a ∈ seen then dedupAux rest seen else a :: dedupAux rest (a :: seen) := rfl

theorem firstIdx_cons (p q : List Char) (rest : List (List Char)) :
    firstIdx p (q :: rest) = if q = p then 0 else firstIdx p rest + 1 := rfl

theorem dedupAux_mem (l : List (List Char)) :
    ∀ seen p, p ∈ dedupAux l seen ↔ p ∈ l ∧ p ∉ seen := by
  induction l with
  | nil => intro seen p; simp [dedupAux]
  | cons a rest ih =>
    intro seen p
    rw [dedupAux_cons]
    by_cases ha : a ∈ seen
    · rw [if_pos ha, ih]
      constructor
      · rintro ⟨hp, hns⟩
        exact ⟨List.mem_cons_of_mem a hp, hns⟩
      · rintro ⟨hp, hns⟩
        rcases List.mem_cons.mp hp with rfl | hp
        · exact absurd ha hns
        · exact ⟨hp, hns⟩
    · rw [if_neg ha, List.mem_cons, ih]
      constructor
      · rintro (hpe | ⟨hp, hns⟩)
        · subst hpe
          exact ⟨List.mem_cons_self p rest, ha⟩
        · exact ⟨List.mem_cons_of_mem a hp, fun hc => hns (List.mem_cons_of_mem a hc)⟩
      · rintro ⟨hp, hns⟩
        rcases List.mem_cons.mp hp with rfl | hp
        · exact Or.inl rfl
        · by_cases hpa : p = a
          · exact Or.inl hpa
          · refine Or.inr ⟨hp, fun hc => ?_⟩
            rcases List.mem_cons.mp hc with h | h
            · exact hpa h
            · exact hns h

theorem dedupAux_nodup (l : List (List Char)) : ∀ seen, (dedupAux l seen).Nodup := by
  induction l with
  | nil => intro seen; exact List.nodup_nil
  | cons a rest ih =>
    intro seen
    rw [dedupAux_cons]
    by_cases ha : a ∈ seen
    · rw [if_pos ha]; exact ih seen
    · rw [if_neg ha]
      refine List.Nodup.cons (fun hc => ?_) (ih (a :: seen))
      exact ((dedupAux_mem rest (a :: seen) a).mp hc).2 (List.mem_cons_self a seen)

theorem dedupAux_firstIdx (l : List (List Char)) :
    ∀ seen p q, p ∈ dedupAux l seen → q ∈ dedupAux l seen →
      firstIdx p (dedupAux l seen) < firstIdx q (dedupAux l seen) →
      firstIdx p l < firstIdx q l := by
  induction l with
  | nil => intro seen p q hp _ _; simp [dedupAux] at hp
  | cons a rest ih =>
    intro seen p q hp hq h
    rw [dedupAux_cons] at hp hq h
    by_cases ha : a ∈ seen
    · rw [if_pos ha] at hp hq h
      have hpn := ((dedupAux_mem rest seen p).mp hp).2
      have hqn := ((dedupAux_mem rest seen q).mp hq).2
      have hpa : a ≠ p := fun hc => hpn (hc ▸ ha)
      have hqa : a ≠ q := fun hc => hqn (hc ▸ ha)
      rw [firstIdx_cons, if_neg hpa, firstIdx_cons, if_neg hqa]
      have := ih seen p q hp hq h
      omega
    · rw [if_neg ha] at hp hq h
      by_cases hpa : a = p
      · subst hpa
        rw [firstIdx_cons, if_pos rfl]
        have hqa : a ≠ q := by
          intro hc
          subst hc
          rw [firstIdx_cons, if_pos rfl] at h
          exact Nat.lt_irrefl 0 h
        rw [firstIdx_cons, if_neg hqa]
        exact Nat.succ_pos _
      · have hp' : p ∈ dedupAux rest (a :: seen) := by
          rcases List.mem_cons.mp hp with hc | hc
          · exact absurd hc.symm hpa
          · exact hc
        rw [firstIdx_cons, if_neg hpa] at h ⊢
        by_cases hqa : a = q
        · subst hqa
          rw [firstIdx_cons, if_pos rfl] at h
          exact absurd h (Nat.not_lt_zero _)
        · have hq' : q ∈ dedupAux rest (a :: seen) := by
            rcases List.mem_cons.mp hq with hc | hc
            · exact absurd hc.symm hqa
            · exact hc
          rw [firstIdx_cons, if_neg hqa] at h ⊢
          have := ih (a :: seen) p q hp' hq' (by omega)
          omega

theorem firstIdx_inj (l : List (List Char)) :
    ∀ p q, p ∈ l → q ∈ l → firstIdx p l = firstIdx q l → p = q := by
  induction l with
  | nil => intro p q hp _ _; simp at hp
  | cons a rest ih =>
    intro p q hp hq h
    by_cases hpa : a = p <;> by_cases hqa : a = q
    · rw [← hpa, ← hqa]
    · rw [firstIdx_cons, if_pos hpa, firstIdx_cons, if_neg hqa] at h
      exact absurd h.symm (Nat.succ_ne_zero _)
    · rw [firstIdx_cons, if_neg hpa, firstIdx_cons, if_pos hqa] at h
      exact absurd h (Nat.succ_ne_zero _)
    · rw [firstIdx_cons, if_neg hpa, firstIdx_cons, if_neg hqa] at h
      have hp' : p ∈ rest := by
        rcases List.mem_cons.mp hp with hc | hc
        · exact absurd hc.symm hpa
        · exact hc
      have hq' : q ∈ rest := by
        rcases List.mem_cons.mp hq with hc | hc
        · exact absurd hc.symm hqa
        · exact hc
      exact ih p q hp' hq' (by omega)

/-- Claim C9: `filter_changed_files` returns exactly the paths contributed
per record — for a record whose status begins with `R`, the `new` path
exactly when the predicate accepts the `old` or the `new` path, and for
any other record its `path` exactly when the predicate accepts it
(`includedPath`) — with no duplicate paths, in first-seen order (the
relative order of two returned paths matches the order of their first
occurrences in the undeduplicated sequence), and the default predicate
`should_include` accepts every path. -/
theorem filter_changed_files_spec (file_statuses : List FileInfo)
    (include_func : List Char → Bool) :
    (∀ p, p ∈ filter_changed_files file_statuses include_func ↔
      ∃ info ∈ file_statuses, includedPath include_func info = some p) ∧
    (filter_changed_files file_statuses include_func).Nodup ∧
    (∀ p q, p ∈ filter_changed_files file_statuses include_func →
      q ∈ filter_changed_files file_statuses include_func →
      (firstIdx p (filter_changed_files file_statuses include_func) <
        firstIdx q (filter_changed_files file_statuses include_func) ↔
       firstIdx p (file_statuses.filterMap (includedPath include_func)) <
        firstIdx q (file_statuses.filterMap (includedPath include_func)))) ∧
    (∀ p, should_include p = true) := by
  refine ⟨fun p => ?_, dedupAux_nodup _ [], fun p q hp hq => ?_, fun _ => rfl⟩
  · rw [filter_changed_files, dedupAux_mem]
    simp [List.mem_filterMap]
  · have hp' := hp
    have hq' := hq
    rw [filter_changed_files] at hp' hq'
    have hpm := ((dedupAux_mem _ [] p).mp hp').1
    have hqm := ((dedupAux_mem _ [] q).mp hq').1
    constructor
    · exact dedupAux_firstIdx _ [] p q hp' hq'
    · intro h
      have hne : p ≠ q := by
        intro hc
        subst hc
        exact Nat.lt_irrefl _ h
      rcases Nat.lt_trichotomy (firstIdx p (filter_changed_files file_statuses include_func))
        (firstIdx q (filter_changed_files file_statuses include_func)) with hlt | heq | hgt
      · exact hlt
      · exact absurd (firstIdx_inj _ p q hp hq heq) hne
      · have := dedupAux_firstIdx _ [] q p hq' hp' hgt
        omega

/-- Claim C9, witness: the repository's own test data — statuses
`M src/app.py`, `A README.md`, `D src/old.py`, `R100 src/old_name.py →
src/new_name.py` with the predicate "path starts with `src/`" — where the
returned order of `src/app.py` and `src/new_name.py` matches their
first-seen order. -/
theorem filter_changed_files_spec_witness :
    firstIdx (("src/app.py").data)
        (filter_changed_files
          [⟨("M").data, none, none, some (("src/app.py").data)⟩,
           ⟨("A").data, none, none, some (("README.md").data)⟩,
           ⟨("D").data, none, none, some (("src/old.py").data)⟩,
           ⟨("R100").data, some (("src/old_name.py").data),
             some (("src/new_name.py").data), none⟩]
          (fun p => ("src/").data.isPrefixOf p)) <
      firstIdx (("src/new_name.py").data)
        (filter_changed_files
          [⟨("M").data, none, none, some (("src/app.py").data)⟩,
           ⟨("A").data, none, none, some (("README.md").data)⟩,
           ⟨("D").data, none, none, some (("src/old.py").data)⟩,
           ⟨("R100").data, some (("src/old_name.py").data),
             some (("src/new_name.py").data), none⟩]
          (fun p => ("src/").data.isPrefixOf p)) := by
  refine ((filter_changed_files_spec _ _).2.2.1 _ _ (by decide) (by decide)).mpr (by decide)

/-! ## Claim C10: `_parse_name_status` on a two-field `R` line -/

theorem splitTab_cons (c : Char) (r : List Char) :
    splitTab (c :: r) =
      if c = '\t' then [] :: splitTab r
      else
        match splitTab r with
        | p :: ps => (c :: p) :: ps
        | [] => [[c]] := rfl

theorem splitTab_no_tab (l : List Char) (h : '\t' ∉ l) : splitTab l = [l] := by
  induction l with
  | nil => rfl
  | cons c r ih =>
    have hc : c ≠ '\t' := fun hc => h (hc ▸ List.mem_cons_self c r)
    rw [splitTab_cons, if_neg hc, ih (fun hm => h (List.mem_cons_of_mem c hm))]

theorem splitTab_append_two (status p : List Char) (hs : '\t' ∉ status) (hp : '\t' ∉ p) :
    splitTab (status ++ '\t' :: p) = [status, p] := by
  induction status with
  | nil =>
    rw [List.nil_append, splitTab_cons, if_pos rfl, splitTab_no_tab p hp]
  | cons c rest ih =>
    have hc : c ≠ '\t' := fun hc => hs (hc ▸ List.mem_cons_self c rest)
    rw [List.cons_append, splitTab_cons, if_neg hc,
      ih (fun hm => hs (List.mem_cons_of_mem c hm))]

theorem splitLinesPy_one (c : Char) :
    splitLinesPy [c] = if isPyLineBreak c then [[]] else [[c]] := rfl

theorem splitLinesPy_cons2 (c1 c2 : Char) (r : List Char) :
    splitLinesPy (c1 :: c2 :: r) =
      if c1 = '\r' ∧ c2 = '\n' then [] :: splitLinesPy r
      else if isPyLineBreak c1 then [] :: splitLinesPy (c2 :: r)
      else
        match splitLinesPy (c2 :: r) with
        | [] => [[c1]]
        | l :: ls => (c1 :: l) :: ls := rfl

/-- A nonempty text without line-boundary characters is a single line. -/
theorem splitLinesPy_single (l : List Char) (h : ∀ c ∈ l, isPyLineBreak c = false)
    (hne : l ≠ []) : splitLinesPy l = [l] := by
  induction l with
  | nil => exact absurd rfl hne
  | cons c r ih =>
    cases r with
    | nil =>
      rw [splitLinesPy_one, if_neg]
      rw [h c (List.mem_cons_self c [])]
      exact Bool.false_ne_true
    | cons c2 r2 =>
      have hc1 : isPyLineBreak c = false := h c (List.mem_cons_self _ _)
      have hcr : ¬ (c = '\r' ∧ c2 = '\n') := by
        rintro ⟨rfl, _⟩
        rw [show isPyLineBreak '\r' = true from rfl] at hc1
        exact Bool.noConfusion hc1
      rw [splitLinesPy_cons2, if_neg hcr, if_neg (by rw [hc1]; exact Bool.false_ne_true),
        ih (fun x hx => h x (List.mem_cons_of_mem c hx)) (by simp)]

/-- Claim C10: a status line whose first tab-separated field begins with
`R` but which has exactly two fields is neither skipped nor parsed as a
rename: `_parse_name_status` yields one generic record whose status is the
R-code and whose path is the second field.  The hypotheses say the text
`status ++ '\t' :: p` really is one strip-stable line with exactly the two
tab-separated fields `status` and `p`. -/
theorem parse_name_status_two_fields (status p : List Char)
    (hR : status.head? = some 'R')
    (hts : '\t' ∉ status) (htp : '\t' ∉ p)
    (hnb : ∀ c ∈ status ++ '\t' :: p, isPyLineBreak c = false)
    (hstrip : pyStrip (status ++ '\t' :: p) = status ++ '\t' :: p) :
    _parse_name_status (status ++ '\t' :: p) =
      [⟨status, none, none, some p⟩] := by
  rw [_parse_name_status, hstrip, splitLinesPy_single _ hnb (by simp)]
  rw [List.filterMap_cons]
  have hline : parseNameStatusLine (status ++ '\t' :: p) = some ⟨status, none, none, some p⟩ := by
    rw [parseNameStatusLine, splitTab_append_two status p hts htp]
  rw [hline, List.filterMap_nil]

/-- Claim C10, witness: the line `R100<TAB>old.txt`. -/
theorem parse_name_status_two_fields_witness :
    _parse_name_status (("R100").data ++ '\t' :: ("old.txt").data) =
      [⟨("R100").data, none, none, some (("old.txt").data)⟩] :=
  parse_name_status_two_fields _ _ (by decide) (by decide) (by decide) (by decide) (by decide)

/-! ## Claim C6: `parse_json_response` never fails -/

/-- Claim C6: for every `json.loads` collaborator and every string input,
`parse_json_response` returns a JSON value on every path: when the input
is empty after code-fence stripping the result is the empty object; when
`loads` fails on the stripped input the result is the empty object; when
`loads` succeeds the result is exactly its value — and the stripping
really removes a leading code fence with its info word and a trailing
fence, as the concrete fenced input shows. -/
theorem parse_json_response_total :
    (∀ (loads : List Char → Option Json) (response : List Char),
      (strip_response response = [] ∧ parse_json_response loads response = Json.obj []) ∨
      (strip_response response ≠ [] ∧ loads (strip_response response) = none ∧
        parse_json_response loads response = Json.obj []) ∨
      (∃ v, strip_response response ≠ [] ∧ loads (strip_response response) = some v ∧
        parse_json_response loads response = v)) ∧
    strip_response (ticks3 ++ ("json\n").data ++ ('{' :: '}' :: []) ++ ticks3) =
      '{' :: '}' :: [] := by
  constructor
  · intro loads response
    by_cases hr : strip_response response = []
    · exact Or.inl ⟨hr, by rw [parse_json_response]; simp [hr]⟩
    · cases hl : loads (strip_response response) with
      | none =>
        refine Or.inr (Or.inl ⟨hr, rfl, ?_⟩)
        rw [parse_json_response]
        simp only [sanitize_for_json, validate_encoding, hl, if_neg hr]
      | some v =>
        refine Or.inr (Or.inr ⟨v, hr, rfl, ?_⟩)
        rw [parse_json_response]
        simp only [sanitize_for_json, validate_encoding, hl, if_neg hr]
  · decide

/-- Claim C6, witness: a failing `loads` on a non-empty input yields the
empty object. -/
theorem parse_json_response_total_witness :
    parse_json_response (fun _ => none) (("x").data) = Json.obj [] := by
  rcases parse_json_response_total.1 (fun _ => none) (("x").data) with
    ⟨_, h⟩ | ⟨_, _, h⟩ | ⟨v, _, hl, _⟩
  · exact h
  · exact h
  · exact Option.noConfusion hl

/-! ## Structure of the `simplify_file_diff` scan -/

theorem findDAt_cons2 (c1 c2 : Char) (r : List Char) :
    findDAt (c1 :: c2 :: r) =
      if c1 = '@' ∧ c2 = '@' then some ([], r)
      else (findDAt (c2 :: r)).map (fun p => (c1 :: p.1, p.2)) := rfl

/-- A successful `findDAt` decomposes its input around the found `@@`. -/
theorem findDAt_eq (t : List Char) :
    ∀ gap rest, findDAt t = some (gap, rest) → t = gap ++ '@' :: '@' :: rest := by
  induction t with
  | nil => intro gap rest h; exact Option.noConfusion h
  | cons c r ih =>
    intro gap rest h
    cases r with
    | nil => exact Option.noConfusion h
    | cons c2 r2 =>
      rw [findDAt_cons2] at h
      split at h
      · rename_i hcc
        simp only [Option.some.injEq, Prod.mk.injEq] at h
        obtain ⟨rfl, rfl⟩ := h
        obtain ⟨rfl, rfl⟩ := hcc
        rfl
      · rcases Option.map_eq_some'.mp h with ⟨⟨g', r'⟩, hfd, heq⟩
        simp only [Prod.mk.injEq] at heq
        obtain ⟨rfl, rfl⟩ := heq
        rw [List.cons_append, ← ih g' r' hfd]

/-- Minimality transfer: the gap found by `findDAt` contains no `@@` and
does not end in `'@'`, so re-scanning the gap followed by `@@` and any
continuation finds the same gap. -/
theorem findDAt_gap_min (t : List Char) :
    ∀ gap rest, findDAt t = some (gap, rest) →
      ∀ z, findDAt (gap ++ '@' :: '@' :: z) = some (gap, z) := by
  induction t with
  | nil => intro gap rest h; exact Option.noConfusion h
  | cons c r ih =>
    intro gap rest h z
    cases r with
    | nil => exact Option.noConfusion h
    | cons c2 r2 =>
      rw [findDAt_cons2] at h
      split at h
      · rename_i hcc
        simp only [Option.some.injEq, Prod.mk.injEq] at h
        obtain ⟨rfl, rfl⟩ := h
        rw [List.nil_append, findDAt_cons2, if_pos ⟨rfl, rfl⟩]
      · rename_i hcc
        rcases Option.map_eq_some'.mp h with ⟨⟨g', r'⟩, hfd, heq⟩
        simp only [Prod.mk.injEq] at heq
        obtain ⟨rfl, rfl⟩ := heq
        have hdec := findDAt_eq _ _ _ hfd
        have hih := ih g' r' hfd z
        obtain ⟨xs, hxs⟩ : ∃ xs, g' ++ '@' :: '@' :: z = c2 :: xs := by
          cases g' with
          | nil =>
            have hc2 : c2 = '@' := by
              have := congrArg List.head? hdec
              simpa using this
            exact ⟨'@' :: z, by rw [List.nil_append, hc2]⟩
          | cons d g'' =>
            have hc2 : c2 = d := by
              have := congrArg List.head? hdec
              simpa using this
            exact ⟨g'' ++ '@' :: '@' :: z, by rw [List.cons_append, hc2]⟩
        rw [List.cons_append, hxs, findDAt_cons2, if_neg hcc, ← hxs, hih]
        rfl

theorem findG2_cons (prev c : Char) (r : List Char) :
    findG2 prev (c :: r) =
      if prev = '\n' ∧ dgMarker.isPrefixOf (c :: r) then ([], c :: r)
      else ((c :: (findG2 c r).1), (findG2 c r).2) := rfl

/-- `findG2` decomposes its input: group 2 followed by the tail. -/
theorem findG2_eq (s : List Char) : ∀ prev, s = (findG2 prev s).1 ++ (findG2 prev s).2 := by
  induction s with
  | nil => intro prev; rfl
  | cons c r ih =>
    intro prev
    rw [findG2_cons]
    split
    · rfl
    · rw [List.cons_append, ← ih c]

theorem findG2_tail_len (s : List Char) (prev : Char) :
    (findG2 prev s).2.length ≤ s.length := by
  have h := congrArg List.length (findG2_eq s prev)
  rw [List.length_append] at h
  omega

/-- The tail at which `findG2` stops is empty or begins with `diff --git`. -/
theorem findG2_tail_cases (s : List Char) :
    ∀ prev, (findG2 prev s).2 = [] ∨ dgMarker.isPrefixOf (findG2 prev s).2 = true := by
  induction s with
  | nil => intro prev; exact Or.inl rfl
  | cons c r ih =>
    intro prev
    rw [findG2_cons]
    split
    · rename_i hco
      exact Or.inr hco.2
    · exact ih c

/-- Walking a newline-free block: `findG2` passes over it unchanged when
the test at its first position fails. -/
theorem findG2_seg (l : List Char) :
    ∀ (prev : Char) (z : List Char), (∀ c ∈ l, c ≠ '\n') →
      (prev = '\n' → dgMarker.isPrefixOf (l ++ z) = false) →
      findG2 prev (l ++ z) =
        (l ++ (findG2 (l.getLastD prev) z).1, (findG2 (l.getLastD prev) z).2) := by
  induction l with
  | nil => intro prev z _ _; rfl
  | cons c l' ih =>
    intro prev z hnl hstart
    have hcond : ¬ (prev = '\n' ∧ dgMarker.isPrefixOf (c :: (l' ++ z)) = true) := by
      rintro ⟨hp, hpre⟩
      have hfalse := hstart hp
      rw [List.cons_append] at hfalse
      rw [hfalse] at hpre
      exact Bool.noConfusion hpre
    rw [List.cons_append, findG2_cons, if_neg hcond]
    rw [ih c z (fun x hx => hnl x (List.mem_cons_of_mem c hx))
      (fun hc => absurd hc (hnl c (List.mem_cons_self c l')))]
    rw [List.getLastD_cons, List.cons_append]

/-- At a line start, a tail that is empty or begins with `diff --git`
stops `findG2` immediately. -/
theorem findG2_newline_stop (z : List Char)
    (hz : dgMarker.isPrefixOf z = true ∨ z = []) : findG2 '\n' z = ([], z) := by
  cases z with
  | nil => rfl
  | cons c r =>
    rcases hz with hz | hz
    · rw [findG2_cons, if_pos ⟨rfl, hz⟩]
    · exact List.noConfusion hz

/-- `diff --git` is not a prefix of the placeholder body (which starts with
a brace), whatever follows it. -/
theorem dg_not_prefix_mid (w : List Char) :
    dgMarker.isPrefixOf
      ((("{Changes are too large to process and have been omitted}").data) ++ w) = false := rfl

/-- Scanning group 2 over the injected placeholder: the scan crosses the
whole placeholder and stops exactly at `z` (empty or a `diff --git`
boundary), so a second substitution pass reproduces the same group 2. -/
theorem findG2_placeholder (z : List Char)
    (hz : dgMarker.isPrefixOf z = true ∨ z = []) :
    findG2 '@' (placeholderText ++ z) = (placeholderText, z) := by
  have hP : placeholderText =
      '\n' :: ((("{Changes are too large to process and have been omitted}").data) ++ ['\n']) := by
    decide
  rw [hP, List.cons_append, findG2_cons, if_neg (fun hco => by
    exact absurd hco.1 (by decide))]
  rw [List.append_assoc, List.singleton_append]
  rw [findG2_seg _ '\n' ('\n' :: z) (by decide) (fun _ => dg_not_prefix_mid ('\n' :: z))]
  rw [show ((("{Changes are too large to process and have been omitted}").data).getLastD '\n')
      = '}' from by decide]
  rw [findG2_cons, if_neg (fun hco => by exact absurd hco.1 (by decide))]
  rw [findG2_newline_stop z hz]

theorem scanSimplifyF_cons2 (f : Nat) (c1 c2 : Char) (r : List Char) :
    scanSimplifyF (f + 1) (c1 :: c2 :: r) =
      if c1 = '@' ∧ c2 = '@' then
        match findDAt r with
        | some (gap, rest) =>
          ('@' :: '@' :: gap) ++ ('@' :: '@' :: (placeholderText ++
            scanSimplifyF f (findG2 '@' rest).2))
        | none => '@' :: scanSimplifyF f (c2 :: r)
      else c1 :: scanSimplifyF f (c2 :: r) := rfl

/-- Any fuel above the input length computes the same scan. -/
theorem scanSimplifyF_fuel (f : Nat) :
    ∀ g s, s.length < f → s.length < g → scanSimplifyF f s = scanSimplifyF g s := by
  induction f with
  | zero => intro g s hf _; exact absurd hf (Nat.not_lt_zero _)
  | succ f ih =>
    intro g s hf hg
    obtain ⟨g', rfl⟩ : ∃ g', g = g' + 1 := ⟨g - 1, by omega⟩
    cases s with
    | nil => rfl
    | cons c1 s' =>
      cases s' with
      | nil => rfl
      | cons c2 r =>
        rw [scanSimplifyF_cons2, scanSimplifyF_cons2]
        simp only [List.length_cons] at hf hg
        by_cases hcc : c1 = '@' ∧ c2 = '@'
        · rw [if_pos hcc, if_pos hcc]
          cases hfd : findDAt r with
          | none =>
            rw [ih g' (c2 :: r) (by simp; omega) (by simp; omega)]
          | some p =>
            obtain ⟨gap, rest⟩ := p
            have hlen := congrArg List.length (findDAt_eq r gap rest hfd)
            simp only [List.length_append, List.length_cons] at hlen
            have htail := findG2_tail_len rest '@'
            show ('@' :: '@' :: gap) ++ ('@' :: '@' :: (placeholderText ++
                scanSimplifyF f (findG2 '@' rest).2)) =
              ('@' :: '@' :: gap) ++ ('@' :: '@' :: (placeholderText ++
                scanSimplifyF g' (findG2 '@' rest).2))
            rw [ih g' ((findG2 '@' rest).2) (by omega) (by omega)]
        · rw [if_neg hcc, if_neg hcc, ih g' (c2 :: r) (by simp; omega) (by simp; omega)]

theorem simplify_file_diff_nil : simplify_file_diff [] = [] := rfl

theorem simplify_file_diff_one (c : Char) : simplify_file_diff [c] = [c] := rfl

/-- Substitution equation: a position that does not start `@@` is copied. -/
theorem simplify_cons_no (c1 c2 : Char) (r : List Char) (h : ¬(c1 = '@' ∧ c2 = '@')) :
    simplify_file_diff (c1 :: c2 :: r) = c1 :: simplify_file_diff (c2 :: r) := by
  rw [simplify_file_diff, scanSimplifyF_cons2, if_neg h, simplify_file_diff,
    scanSimplifyF_fuel ((c1 :: c2 :: r).length) ((c2 :: r).length + 1) (c2 :: r)
      (by simp) (by omega)]

/-- Substitution equation: a match replaces group 1 and group 2 by group 1
followed by the placeholder, and the scan resumes at the tail. -/
theorem simplify_match (t gap rest : List Char) (h : findDAt t = some (gap, rest)) :
    simplify_file_diff ('@' :: '@' :: t) =
      ('@' :: '@' :: gap) ++ ('@' :: '@' :: (placeholderText ++
        simplify_file_diff (findG2 '@' rest).2)) := by
  have hlen := congrArg List.length (findDAt_eq t gap rest h)
  simp only [List.length_append, List.length_cons] at hlen
  have htail := findG2_tail_len rest '@'
  rw [simplify_file_diff, scanSimplifyF_cons2, if_pos ⟨rfl, rfl⟩, h]
  show ('@' :: '@' :: gap) ++ ('@' :: '@' :: (placeholderText ++
      scanSimplifyF (('@' :: '@' :: t).length) (findG2 '@' rest).2)) = _
  rw [simplify_file_diff,
    scanSimplifyF_fuel (('@' :: '@' :: t).length) ((findG2 '@' rest).2.length + 1)
      ((findG2 '@' rest).2) (by simp; omega) (by omega)]

theorem findDAt_none_cons2 (c1 c2 : Char) (r : List Char) (h : findDAt (c1 :: c2 :: r) = none) :
    ¬(c1 = '@' ∧ c2 = '@') ∧ findDAt (c2 :: r) = none := by
  rw [findDAt_cons2] at h
  split at h
  · exact Option.noConfusion h
  · rename_i hcc
    exact ⟨hcc, Option.map_eq_none'.mp h⟩

/-- A text with no `@@` occurrence is scanned literally. -/
theorem scan_no_pair (s : List Char) :
    findDAt s = none → ∀ f, s.length ≤ f → scanSimplifyF f s = s := by
  induction s with
  | nil => intro _ f _; cases f <;> rfl
  | cons c r ih =>
    intro h f hf
    obtain ⟨f', rfl⟩ : ∃ f', f = f' + 1 := ⟨f - 1, by simp at hf; omega⟩
    cases r with
    | nil => rfl
    | cons c2 r2 =>
      obtain ⟨hcc, hr⟩ := findDAt_none_cons2 c c2 r2 h
      rw [scanSimplifyF_cons2, if_neg hcc, ih hr f' (by simp at hf ⊢; omega)]

/-- Scanning `'@' :: t` when `t` contains no `@@`: everything is copied
(each candidate match fails for lack of a closing `@@`). -/
theorem scan_at_no_pair (t : List Char) :
    findDAt t = none → ∀ f, t.length + 1 ≤ f → scanSimplifyF f ('@' :: t) = '@' :: t := by
  induction t with
  | nil =>
    intro _ f hf
    obtain ⟨f', rfl⟩ : ∃ f', f = f' + 1 := ⟨f - 1, by omega⟩
    rfl
  | cons c2 r2 ih =>
    intro h f hf
    obtain ⟨f', rfl⟩ : ∃ f', f = f' + 1 := ⟨f - 1, by simp at hf; omega⟩
    simp only [List.length_cons] at hf
    by_cases hc2 : c2 = '@'
    · subst hc2
      have h2 : findDAt r2 = none := by
        cases r2 with
        | nil => rfl
        | cons c3 r3 => exact (findDAt_none_cons2 '@' c3 r3 h).2
      rw [scanSimplifyF_cons2, if_pos ⟨rfl, rfl⟩, h2, ih h2 f' (by omega)]
    · rw [scanSimplifyF_cons2, if_neg (fun hp => hc2 hp.2),
        scan_no_pair (c2 :: r2) h f' (by simp; omega)]

/-- Substitution equation: `@@` with no later closing `@@` never matches,
so the text is returned unchanged. -/
theorem simplify_at_nomatch (t : List Char) (h : findDAt t = none) :
    simplify_file_diff ('@' :: '@' :: t) = '@' :: '@' :: t := by
  rw [simplify_file_diff, scanSimplifyF_cons2, if_pos ⟨rfl, rfl⟩, h,
    scan_at_no_pair t h (('@' :: '@' :: t).length) (by simp)]

/-- The substitution never changes the first character. -/
theorem simplify_head? (s : List Char) : (simplify_file_diff s).head? = s.head? := by
  cases s with
  | nil => rfl
  | cons c1 r =>
    cases r with
    | nil => rfl
    | cons c2 r2 =>
      by_cases hcc : c1 = '@' ∧ c2 = '@'
      · obtain ⟨rfl, rfl⟩ := hcc
        cases hfd : findDAt r2 with
        | none => rw [simplify_at_nomatch r2 hfd]
        | some p =>
          obtain ⟨gap, rest⟩ := p
          rw [simplify_match r2 gap rest hfd]
          rfl
      · rw [simplify_cons_no c1 c2 r2 hcc]
        rfl

theorem simplify_ne_nil (s : List Char) (h : s ≠ []) : simplify_file_diff s ≠ [] := by
  intro hc
  have hh := simplify_head? s
  rw [hc] at hh
  cases s with
  | nil => exact h rfl
  | cons c r => exact Option.noConfusion hh

/-- A prefix containing no `'@'` is copied unchanged by the substitution. -/
theorem simplify_append_free (pre : List Char) :
    ∀ y, (∀ c ∈ pre, c ≠ '@') →
      simplify_file_diff (pre ++ y) = pre ++ simplify_file_diff y := by
  induction pre with
  | nil => intro y _; rfl
  | cons c pre' ih =>
    intro y h
    have hc : c ≠ '@' := h c (List.mem_cons_self _ _)
    rw [List.cons_append]
    cases hpy : pre' ++ y with
    | nil =>
      obtain ⟨rfl, rfl⟩ : pre' = [] ∧ y = [] := List.append_eq_nil.mp hpy
      rfl
    | cons d w =>
      rw [simplify_cons_no c d w (fun hp => hc hp.1), ← hpy,
        ih y (fun x hx => h x (List.mem_cons_of_mem c hx))]
      rfl

/-- The substitution preserves a leading `diff --git` marker. -/
theorem dg_prefix_simplify (y : List Char) (h : dgMarker.isPrefixOf y = true) :
    dgMarker.isPrefixOf (simplify_file_diff y) = true := by
  obtain ⟨w, rfl⟩ : ∃ w, y = dgMarker ++ w := by
    obtain ⟨w, hw⟩ := List.isPrefixOf_iff_prefix.mp h
    exact ⟨w, hw.symm⟩
  rw [simplify_append_free dgMarker w (by decide)]
  exact List.isPrefixOf_iff_prefix.mpr ⟨simplify_file_diff w, rfl⟩

/-- Idempotency of the substitution, by strong induction on length:
re-scanning a replaced block finds the same group 1 (the gap transfers by
`findDAt_gap_min`), crosses the injected placeholder (`findG2_placeholder`)
and stops at the already-simplified tail. -/
theorem simplify_idem_aux (n : Nat) :
    ∀ s : List Char, s.length ≤ n →
      simplify_file_diff (simplify_file_diff s) = simplify_file_diff s := by
  induction n with
  | zero =>
    intro s hs
    have hnil : s = [] := List.eq_nil_of_length_eq_zero (by omega)
    subst hnil
    rfl
  | succ n ih =>
    intro s hs
    cases s with
    | nil => rfl
    | cons c1 s' =>
      cases s' with
      | nil => rfl
      | cons c2 r =>
        simp only [List.length_cons] at hs
        by_cases hcc : c1 = '@' ∧ c2 = '@'
        · obtain ⟨rfl, rfl⟩ := hcc
          cases hfd : findDAt r with
          | none => rw [simplify_at_nomatch r hfd, simplify_at_nomatch r hfd]
          | some p =>
            obtain ⟨gap, rest⟩ := p
            rw [simplify_match r gap rest hfd]
            have hsh : ('@' :: '@' :: gap) ++ ('@' :: '@' :: (placeholderText ++
                simplify_file_diff (findG2 '@' rest).2)) =
              '@' :: '@' :: (gap ++ '@' :: '@' :: (placeholderText ++
                simplify_file_diff (findG2 '@' rest).2)) := rfl
            rw [hsh]
            rw [simplify_match _ gap
              (placeholderText ++ simplify_file_diff (findG2 '@' rest).2)
              (findDAt_gap_min r gap rest hfd _)]
            have hz : dgMarker.isPrefixOf (simplify_file_diff (findG2 '@' rest).2) = true ∨
                simplify_file_diff (findG2 '@' rest).2 = [] := by
              rcases findG2_tail_cases rest '@' with htc | htc
              · right; rw [htc]; rfl
              · left; exact dg_prefix_simplify _ htc
            rw [findG2_placeholder _ hz]
            show ('@' :: '@' :: gap) ++ ('@' :: '@' :: (placeholderText ++
                simplify_file_diff (simplify_file_diff (findG2 '@' rest).2))) = _
            have hlen := congrArg List.length (findDAt_eq r gap rest hfd)
            simp only [List.length_append, List.length_cons] at hlen
            have htail := findG2_tail_len rest '@'
            rw [ih ((findG2 '@' rest).2) (by omega)]
            exact hsh
        · rw [simplify_cons_no c1 c2 r hcc]
          cases hy : simplify_file_diff (c2 :: r) with
          | nil => exact absurd hy (simplify_ne_nil _ (by simp))
          | cons d w =>
            have hd : d = c2 := by
              have hh := simplify_head? (c2 :: r)
              rw [hy] at hh
              simpa using hh
            subst hd
            rw [simplify_cons_no c1 d w hcc, ← hy, ih (d :: r) (by simp; omega)]

/-! ## Claim C7: `simplify_file_diff` idempotency and header preservation -/

set_option maxRecDepth 8192 in
/-- Claim C7, counterexample.  In a file diff with two hunks, the second
hunk's `@@ -2 +2 @@` marker line is NOT preserved by `simplify_file_diff`:
the regex's group 2 (with `DOTALL`) extends to the next `diff --git`
boundary or the end of the text, swallowing every later hunk header of the
same file, so only the first marker survives. -/
theorem simplify_file_diff_c7_counterexample :
    (("@@ -2 +2 @@").data <:+: (("@@ -1 +1 @@\na\n@@ -2 +2 @@\nb").data)) ∧
    ¬ (("@@ -2 +2 @@").data <:+:
        simplify_file_diff (("@@ -1 +1 @@\na\n@@ -2 +2 @@\nb").data)) := by
  decide

/-- Claim C7 (amended): `simplify_file_diff` is idempotent — applying it to
its own output returns that output unchanged — and it never alters the
text before the first hunk: any prefix containing no `'@'` character (in
particular the `diff --git`/`index`/`---`/`+++` header lines before the
first `@@` marker) is copied verbatim.  Within a file diff, however, only
the first matched `@@ ... @@` marker is kept: subsequent hunk markers up to
the next file-diff boundary are replaced together with the hunk bodies
(see the counterexample). -/
theorem simplify_file_diff_idem_spec :
    (∀ s, simplify_file_diff (simplify_file_diff s) = simplify_file_diff s) ∧
    (∀ pre y, (∀ c ∈ pre, c ≠ '@') →
      simplify_file_diff (pre ++ y) = pre ++ simplify_file_diff y) :=
  ⟨fun s => simplify_idem_aux s.length s le_rfl,
   fun pre y h => simplify_append_free pre y h⟩

/-- Claim C7, witness: a file-diff header line before the first hunk is
preserved verbatim. -/
theorem simplify_file_diff_idem_spec_witness :
    simplify_file_diff ((("diff --git a/f\n").data) ++ (("@@ -1 +1 @@\nx").data)) =
      (("diff --git a/f\n").data) ++ simplify_file_diff (("@@ -1 +1 @@\nx").data) :=
  simplify_file_diff_idem_spec.2 _ _ (by decide)

/-! ## Claim C1: the batch packer `prepare_file_diffs` -/

theorem file_diff_simplified_ne_nil (fd : List Char) (h : fd ≠ []) :
    file_diff_simplified fd ≠ [] := by
  rw [file_diff_simplified]
  split
  · exact simplify_ne_nil fd h
  · exact h

theorem prepStep_eq (joint : List (List Char)) (current fd : List Char) :
    prepStep (joint, current) fd =
      if string_is_too_large (current ++ file_diff_simplified fd) then
        (joint ++ (if current = [] then [] else [current]), file_diff_simplified fd)
      else (joint, current ++ file_diff_simplified fd) := rfl

/-- Invariant of the packing loop: every emitted batch is good, the
running batch is empty or size-bounded-or-single-degraded, emitted
batches plus the running batch concatenate to the degraded segments
processed so far, and after at least one non-empty segment the running
batch is non-empty. -/
theorem prep_fold_inv (fds : List (List Char)) (rest : List (List Char)) :
    (∀ x ∈ rest, x ∈ fds) →
    ∀ (joint : List (List Char)) (current : List Char),
      (∀ b ∈ joint, goodBatch fds b) →
      (current = [] ∨ (string_is_too_large current = true →
        ∃ fd ∈ fds, current = file_diff_simplified fd)) →
      (∀ b ∈ (rest.foldl prepStep (joint, current)).1, goodBatch fds b) ∧
      ((rest.foldl prepStep (joint, current)).2 = [] ∨
        (string_is_too_large (rest.foldl prepStep (joint, current)).2 = true →
          ∃ fd ∈ fds, (rest.foldl prepStep (joint, current)).2 = file_diff_simplified fd)) ∧
      ((rest.foldl prepStep (joint, current)).1.flatten ++
          (rest.foldl prepStep (joint, current)).2 =
        joint.flatten ++ current ++ (rest.map file_diff_simplified).flatten) ∧
      (rest = [] → (rest.foldl prepStep (joint, current)).2 = current) ∧
      (rest ≠ [] → (∀ x ∈ rest, x ≠ []) →
        (rest.foldl prepStep (joint, current)).2 ≠ []) := by
  induction rest with
  | nil =>
    intro _ joint current hjoint hcur
    exact ⟨hjoint, hcur, by simp, fun _ => rfl, fun hne _ => absurd rfl hne⟩
  | cons fd rest' ih =>
    intro hrest joint current hjoint hcur
    have hrest' : ∀ x ∈ rest', x ∈ fds := fun x hx => hrest x (List.mem_cons_of_mem fd hx)
    have hfd : fd ∈ fds := hrest fd (List.mem_cons_self fd rest')
    rw [List.foldl_cons, prepStep_eq]
    by_cases hbig : string_is_too_large (current ++ file_diff_simplified fd) = true
    · rw [if_pos hbig]
      have hjoint' : ∀ b ∈ joint ++ (if current = [] then [] else [current]),
          goodBatch fds b := by
        intro b hb
        rcases List.mem_append.mp hb with hb | hb
        · exact hjoint b hb
        · by_cases hcn : current = []
          · rw [if_pos hcn] at hb
            exact absurd hb (List.not_mem_nil b)
          · rw [if_neg hcn] at hb
            rcases List.mem_cons.mp hb with rfl | hb
            · refine ⟨hcn, ?_⟩
              rcases hcur with rfl | hp
              · exact absurd rfl hcn
              · exact hp
            · exact absurd hb (List.not_mem_nil b)
      have hcur' : file_diff_simplified fd = [] ∨
          (string_is_too_large (file_diff_simplified fd) = true →
            ∃ fd' ∈ fds, file_diff_simplified fd = file_diff_simplified fd') :=
        Or.inr (fun _ => ⟨fd, hfd, rfl⟩)
      obtain ⟨A, B, D, E1, E2⟩ := ih hrest' _ _ hjoint' hcur'
      refine ⟨A, B, ?_, fun hc => List.noConfusion hc, ?_⟩
      · rw [D]
        by_cases hcn : current = []
        · subst hcn
          simp
        · rw [if_neg hcn]
          simp [List.append_assoc]
      · intro _ hne
        by_cases hr' : rest' = []
        · subst hr'
          rw [E1 rfl]
          exact file_diff_simplified_ne_nil fd (hne fd (List.mem_cons_self fd []))
        · exact E2 hr' (fun x hx => hne x (List.mem_cons_of_mem fd hx))
    · rw [if_neg hbig]
      have hcur' : current ++ file_diff_simplified fd = [] ∨
          (string_is_too_large (current ++ file_diff_simplified fd) = true →
            ∃ fd' ∈ fds, current ++ file_diff_simplified fd = file_diff_simplified fd') :=
        Or.inr (fun hc => absurd hc hbig)
      obtain ⟨A, B, D, E1, E2⟩ := ih hrest' _ _ hjoint hcur'
      refine ⟨A, B, ?_, fun hc => List.noConfusion hc, ?_⟩
      · rw [D]
        simp [List.append_assoc]
      · intro _ hne
        by_cases hr' : rest' = []
        · subst hr'
          rw [E1 rfl]
          intro hc
          exact file_diff_simplified_ne_nil fd (hne fd (List.mem_cons_self fd []))
            (List.append_eq_nil.mp hc).2
        · exact E2 hr' (fun x hx => hne x (List.mem_cons_of_mem fd hx))

/-- Claim C1: for every sequence of (non-empty) file-diff segments, the
batches of `prepare_file_diffs` are all non-empty; their in-order
concatenation equals the in-order concatenation of the segments after
degrading each segment that alone exceeds the 50,000-byte ceiling; a
batch's byte size exceeds the ceiling only when the batch is a single
segment whose degraded form alone exceeds the ceiling; and an empty
input yields zero batches. -/
theorem prepare_file_diffs_spec (fds : List (List Char)) (h : ∀ fd ∈ fds, fd ≠ []) :
    (∀ b ∈ prepare_file_diffs fds, b ≠ []) ∧
    ((prepare_file_diffs fds).flatten = (fds.map file_diff_simplified).flatten) ∧
    (∀ b ∈ prepare_file_diffs fds, string_is_too_large b = true →
      ∃ fd ∈ fds, b = file_diff_simplified fd ∧
        string_is_too_large (file_diff_simplified fd) = true) ∧
    prepare_file_diffs ([] : List (List Char)) = [] := by
  cases hf : fds with
  | nil =>
    exact ⟨fun b hb => absurd hb (List.not_mem_nil b), rfl, fun b hb =>
      absurd hb (List.not_mem_nil b), rfl⟩
  | cons f0 fs =>
    subst hf
    obtain ⟨A, B, D, -, E2⟩ := prep_fold_inv (f0 :: fs) (f0 :: fs) (fun x hx => hx) [] []
      (fun b hb => absurd hb (List.not_mem_nil b)) (Or.inl rfl)
    have hout : prepare_file_diffs (f0 :: fs) =
        ((f0 :: fs).foldl prepStep ([], [])).1 ++ [((f0 :: fs).foldl prepStep ([], [])).2] := rfl
    have hp2 : ((f0 :: fs).foldl prepStep ([], [])).2 ≠ [] :=
      E2 (fun hc => List.noConfusion hc) h
    refine ⟨?_, ?_, ?_, rfl⟩
    · intro b hb
      rw [hout] at hb
      rcases List.mem_append.mp hb with hb | hb
      · exact (A b hb).1
      · rcases List.mem_cons.mp hb with rfl | hb
        · exact hp2
        · exact absurd hb (List.not_mem_nil b)
    · rw [hout]
      rw [List.flatten_append]
      simp only [List.flatten, List.append_nil]
      rw [D]
      simp
    · intro b hb hbig
      rw [hout] at hb
      have hmem : ∃ fd ∈ f0 :: fs, b = file_diff_simplified fd := by
        rcases List.mem_append.mp hb with hb | hb
        · exact (A b hb).2 hbig
        · rcases List.mem_cons.mp hb with rfl | hb
          · rcases B with hB | hB
            · rw [hB] at hbig
              exact absurd hbig (by decide)
            · exact hB hbig
          · exact absurd hb (List.not_mem_nil b)
      obtain ⟨fd, hfd, rfl⟩ := hmem
      exact ⟨fd, hfd, rfl, hbig⟩

/-- Claim C1, witness: the degraded-concatenation equality on a concrete
two-segment input. -/
theorem prepare_file_diffs_spec_witness :
    (prepare_file_diffs [[('a' : Char)], [('b' : Char)]]).flatten =
      ([[('a' : Char)], [('b' : Char)]].map file_diff_simplified).flatten :=
  (prepare_file_diffs_spec _ (by decide)).2.1

/-! ## Claim C5: the `split_diff` round trip

The helper lemmas establish that a block produced by the split has no
internal `diff --git` line start, and that stripping preserves this, so a
single canonical segment re-splits to itself; the counterexample shows the
round trip fails as soon as a batch packs two segments, because stripped
segments do not end with a newline. -/

theorem splitDGCore_cons (c : Char) (r : List Char) (atLS : Bool) :
    splitDGCore (c :: r) atLS =
      match splitDGCore r (c = '\n'), atLS && dgMarker.isPrefixOf (c :: r) with
      | p :: ps, true => [] :: (c :: p) :: ps
      | p :: ps, false => (c :: p) :: ps
      | [], _ => [[]] := rfl

theorem hasDGFrom_cons (c : Char) (r : List Char) (atLS : Bool) :
    hasDGFrom (c :: r) atLS =
      ((atLS && dgMarker.isPrefixOf (c :: r)) || hasDGFrom r (c = '\n')) := rfl

theorem splitDGCore_ne_nil (s : List Char) : ∀ atLS, splitDGCore s atLS ≠ [] := by
  cases s with
  | nil => intro atLS h; exact List.noConfusion h
  | cons c r =>
    intro atLS
    rw [splitDGCore_cons]
    rcases hi : splitDGCore r (c = '\n') with - | ⟨p, ps⟩ <;>
      cases hb : atLS && dgMarker.isPrefixOf (c :: r) <;> simp

/-- A text with no `diff --git` line start is one single block. -/
theorem splitDGCore_no_split (s : List Char) :
    ∀ atLS, hasDGFrom s atLS = false → splitDGCore s atLS = [s] := by
  induction s with
  | nil => intro atLS _; rfl
  | cons c r ih =>
    intro atLS h
    rw [hasDGFrom_cons, Bool.or_eq_false_iff] at h
    rw [splitDGCore_cons, ih (c = '\n') h.2, h.1]

/-- The first block of the split is a prefix of the text. -/
theorem splitDGCore_head_prefix (s : List Char) :
    ∀ atLS p ps, splitDGCore s atLS = p :: ps → p <+: s := by
  induction s with
  | nil =>
    intro atLS p ps h
    simp only [splitDGCore] at h
    obtain ⟨rfl, -⟩ := List.cons.injEq _ _ _ _ ▸ h
    exact List.nil_prefix
  | cons c r ih =>
    intro atLS p ps h
    rw [splitDGCore_cons] at h
    rcases hi : splitDGCore r (c = '\n') with - | ⟨p0, ps0⟩
    · exact absurd hi (splitDGCore_ne_nil r (c = '\n'))
    · rw [hi] at h
      cases hb : atLS && dgMarker.isPrefixOf (c :: r) <;> rw [hb] at h <;>
        simp only [List.cons.injEq] at h
      · obtain ⟨rfl, -⟩ := h
        exact (List.cons_prefix_cons).mpr ⟨rfl, ih (c = '\n') p0 ps0 hi⟩
      · obtain ⟨rfl, -⟩ := h
        exact List.nil_prefix

/-- A non-empty first block means the test at position 0 failed. -/
theorem splitDGCore_head_cond (s : List Char) :
    ∀ atLS d q ps, splitDGCore s atLS = (d :: q) :: ps →
      (atLS && dgMarker.isPrefixOf s) = false := by
  cases s with
  | nil =>
    intro atLS d q ps h
    simp only [splitDGCore] at h
    obtain ⟨he, -⟩ := List.cons.injEq _ _ _ _ ▸ h
    exact List.noConfusion he
  | cons c r =>
    intro atLS d q ps h
    rw [splitDGCore_cons] at h
    rcases hi : splitDGCore r (c = '\n') with - | ⟨p0, ps0⟩
    · exact absurd hi (splitDGCore_ne_nil r (c = '\n'))
    · rw [hi] at h
      cases hb : atLS && dgMarker.isPrefixOf (c :: r)
      · rfl
      · rw [hb] at h
        simp only [List.cons.injEq] at h
        exact absurd h.1 (fun hc => List.noConfusion hc)

/-- No block produced by the split has an internal `diff --git` line
start. -/
theorem splitDGCore_inner (s : List Char) :
    ∀ atLS p, p ∈ splitDGCore s atLS → ∀ c r, p = c :: r →
      hasDGFrom r (c = '\n') = false := by
  induction s with
  | nil =>
    intro atLS p hp c r hpc
    simp only [splitDGCore] at hp
    rcases List.mem_cons.mp hp with rfl | hp
    · exact List.noConfusion hpc
    · exact absurd hp (List.not_mem_nil p)
  | cons c0 r0 ih =>
    intro atLS p hp c r hpc
    rw [splitDGCore_cons] at hp
    rcases hi : splitDGCore r0 (c0 = '\n') with - | ⟨p0, ps0⟩
    · exact absurd hi (splitDGCore_ne_nil r0 (c0 = '\n'))
    · rw [hi] at hp
      have hmid : hasDGFrom p0 (c0 = '\n') = false := by
        cases p0 with
        | nil => rfl
        | cons d q =>
          rw [hasDGFrom_cons, Bool.or_eq_false_iff]
          refine ⟨?_, ih (c0 = '\n') (d :: q)
            (by rw [hi]; exact List.mem_cons_self _ _) d q rfl⟩
          have hc1 : ((c0 = '\n') && dgMarker.isPrefixOf r0) = false :=
            splitDGCore_head_cond r0 (c0 = '\n') d q ps0 hi
          have hpref : (d :: q) <+: r0 :=
            splitDGCore_head_prefix r0 (c0 = '\n') (d :: q) ps0 hi
          cases hdec : (decide (c0 = '\n'))
          · rw [Bool.false_and]
          · rw [hdec, Bool.true_and] at hc1
            rw [Bool.true_and]
            cases hdg : dgMarker.isPrefixOf (d :: q)
            · rfl
            · obtain ⟨t1, ht1⟩ := List.isPrefixOf_iff_prefix.mp hdg
              obtain ⟨t2, ht2⟩ := hpref
              have hdr : dgMarker <+: r0 :=
                ⟨t1 ++ t2, by rw [← ht2, ← ht1, List.append_assoc]⟩
              rw [List.isPrefixOf_iff_prefix.mpr hdr] at hc1
              exact hc1
      cases hb : atLS && dgMarker.isPrefixOf (c0 :: r0) <;> rw [hb] at hp
      · rcases List.mem_cons.mp hp with rfl | hp
        · obtain ⟨h1, h2⟩ : c0 = c ∧ p0 = r :=
            ⟨(List.cons.injEq _ _ _ _ ▸ hpc).1, (List.cons.injEq _ _ _ _ ▸ hpc).2⟩
          subst h1
          subst h2
          exact hmid
        · exact ih (c0 = '\n') p (by rw [hi]; exact List.mem_cons_of_mem p0 hp) c r hpc
      · rcases List.mem_cons.mp hp with rfl | hp
        · exact List.noConfusion hpc
        · rcases List.mem_cons.mp hp with rfl | hp
          · obtain ⟨h1, h2⟩ : c0 = c ∧ p0 = r :=
              ⟨(List.cons.injEq _ _ _ _ ▸ hpc).1, (List.cons.injEq _ _ _ _ ▸ hpc).2⟩
            subst h1
            subst h2
            exact hmid
          · exact ih (c0 = '\n') p (by rw [hi]; exact List.mem_cons_of_mem p0 hp) c r hpc

theorem isPrefixOf_append_ext (a b w : List Char) (h : a.isPrefixOf b = true) :
    a.isPrefixOf (b ++ w) = true := by
  obtain ⟨t, ht⟩ := List.isPrefixOf_iff_prefix.mp h
  exact List.isPrefixOf_iff_prefix.mpr ⟨t ++ w, by rw [← List.append_assoc, ht]⟩

/-- Any position after a `'\n'` where `diff --git` starts witnesses
`hasDGFrom`. -/
theorem hasDGFrom_of_decomp (a : List Char) :
    ∀ (b : List Char) (atLS : Bool), a.getLast? = some '\n' →
      dgMarker.isPrefixOf b = true → hasDGFrom (a ++ b) atLS = true := by
  induction a with
  | nil => intro b atLS h _; exact Option.noConfusion h
  | cons x a' ih =>
    intro b atLS hl hb
    cases a' with
    | nil =>
      have hx : x = '\n' := by simpa using hl
      subst hx
      rw [List.cons_append, List.nil_append, hasDGFrom_cons]
      cases b with
      | nil => exact absurd hb (by decide)
      | cons c r =>
        have hbr : hasDGFrom (c :: r) (decide (('\n' : Char) = '\n')) = true := by
          rw [hasDGFrom_cons,
            show (decide (('\n' : Char) = '\n')) = true from by decide,
            Bool.true_and, hb, Bool.true_or]
        rw [hbr, Bool.or_true]
    | cons y a'' =>
      rw [List.cons_append, hasDGFrom_cons]
      have hl' : (y :: a'').getLast? = some '\n' := by
        rw [← List.getLast?_cons_cons]
        exact hl
      rw [ih b (x = '\n') hl' hb, Bool.or_true]

/-- Conversely, `hasDGFrom` yields either a hit at position 0 or a
decomposition at a later line start. -/
theorem hasDGFrom_decomp (s : List Char) :
    ∀ atLS, hasDGFrom s atLS = true →
      (atLS = true ∧ dgMarker.isPrefixOf s = true) ∨
      ∃ a b, s = a ++ b ∧ a.getLast? = some '\n' ∧ dgMarker.isPrefixOf b = true := by
  induction s with
  | nil => intro atLS h; exact Bool.noConfusion h
  | cons x s' ih =>
    intro atLS h
    rw [hasDGFrom_cons, Bool.or_eq_true] at h
    rcases h with h | h
    · rw [Bool.and_eq_true] at h
      exact Or.inl ⟨h.1, h.2⟩
    · rcases ih (x = '\n') h with ⟨hx, hpf⟩ | ⟨a, b, hab, hl, hb⟩
      · right
        refine ⟨[x], s', rfl, ?_, hpf⟩
        rw [of_decide_eq_true hx]
        rfl
      · right
        refine ⟨x :: a, b, by rw [hab, List.cons_append], ?_, hb⟩
        have hane : a ≠ [] := fun hc => by rw [hc] at hl; exact Option.noConfusion hl
        cases a with
        | nil => exact absurd rfl hane
        | cons y a' =>
          rw [List.getLast?_cons_cons]
          exact hl

theorem dropWhile_head_false (f : Char → Bool) (l : List Char) :
    ∀ c r, l.dropWhile f = c :: r → f c = false := by
  induction l with
  | nil => intro c r h; exact List.noConfusion h
  | cons x xs ih =>
    intro c r h
    rw [List.dropWhile_cons] at h
    split at h
    · exact ih c r h
    · rename_i hx
      obtain ⟨rfl, -⟩ := List.cons.injEq _ _ _ _ ▸ h
      exact Bool.eq_false_iff.mpr hx

/-- `strip()` keeps a prefix of the left-stripped text. -/
theorem pyStrip_prefix (p : List Char) : pyStrip p <+: p.dropWhile pyIsSpace := by
  refine (List.reverse_suffix).mp ?_
  rw [pyStrip, List.reverse_reverse]
  exact List.dropWhile_suffix _

/-- `strip()` decomposition: the text is junk, the stripped text, junk. -/
theorem pyStrip_decomp (p : List Char) : ∃ w1 w2, p = w1 ++ (pyStrip p ++ w2) := by
  obtain ⟨w2, hw2⟩ := pyStrip_prefix p
  exact ⟨p.takeWhile pyIsSpace, w2,
    by rw [hw2, List.takeWhile_append_dropWhile]⟩

theorem pyStrip_head_not_space (p : List Char) :
    ∀ c r, pyStrip p = c :: r → pyIsSpace c = false := by
  intro c r h
  have hpre := pyStrip_prefix p
  rw [h] at hpre
  obtain ⟨t, ht⟩ := hpre
  exact dropWhile_head_false pyIsSpace p c (r ++ t) (by rw [← ht]; rfl)

theorem pyStrip_rev (p : List Char) :
    (pyStrip p).reverse = (p.dropWhile pyIsSpace).reverse.dropWhile pyIsSpace := by
  rw [pyStrip, List.reverse_reverse]

theorem pyStrip_last_not_space (p : List Char) :
    ∀ c r, (pyStrip p).reverse = c :: r → pyIsSpace c = false := by
  intro c r h
  rw [pyStrip_rev] at h
  exact dropWhile_head_false pyIsSpace _ c r h

theorem pyStrip_idem (p : List Char) : pyStrip (pyStrip p) = pyStrip p := by
  cases hs : pyStrip p with
  | nil => rfl
  | cons c r =>
    have h1 : (c :: r).dropWhile pyIsSpace = c :: r := by
      rw [List.dropWhile_cons, if_neg (by
        rw [pyStrip_head_not_space p c r hs]
        exact Bool.false_ne_true)]
    have h2 : (c :: r).reverse.dropWhile pyIsSpace = (c :: r).reverse := by
      cases hrev : (c :: r).reverse with
      | nil =>
        have := congrArg List.length hrev
        simp at this
      | cons d w =>
        rw [List.dropWhile_cons, if_neg (by
          rw [pyStrip_last_not_space p d w (by rw [hs, hrev])]
          exact Bool.false_ne_true)]
    rw [pyStrip, h1, h2, List.reverse_reverse]

/-- Stripping a block with no internal `diff --git` line start yields a
text with no internal `diff --git` line start. -/
theorem pyStrip_inner (p : List Char)
    (hp : ∀ c r, p = c :: r → hasDGFrom r (c = '\n') = false) :
    ∀ c r, pyStrip p = c :: r → hasDGFrom r (c = '\n') = false := by
  intro c r hs
  cases hdg : hasDGFrom r (decide (c = '\n')) with
  | false => rfl
  | true =>
    exfalso
    have hcn : (decide (c = '\n')) = false := by
      have hns := pyStrip_head_not_space p c r hs
      cases hd : decide (c = '\n')
      · rfl
      · have hc : c = '\n' := of_decide_eq_true hd
        subst hc
        rw [show pyIsSpace '\n' = true from by decide] at hns
        exact Bool.noConfusion hns
    rw [hcn] at hdg
    rcases hasDGFrom_decomp r false hdg with ⟨hfa, -⟩ | ⟨a, b, hab, hl, hb⟩
    · exact Bool.noConfusion hfa
    · have hane : a ≠ [] := fun hc => by rw [hc] at hl; exact Option.noConfusion hl
      obtain ⟨w1, w2, hw⟩ := pyStrip_decomp p
      rw [hs, hab] at hw
      cases w1 with
      | nil =>
        have hp' := hp c ((a ++ b) ++ w2) (by rw [hw]; rfl)
        have htrue : hasDGFrom ((a ++ b) ++ w2) (decide (c = '\n')) = true := by
          rw [List.append_assoc]
          exact hasDGFrom_of_decomp a (b ++ w2) _ hl (isPrefixOf_append_ext _ _ _ hb)
        rw [hp'] at htrue
        exact Bool.noConfusion htrue
      | cons x w1' =>
        have hp' := hp x (w1' ++ ((c :: (a ++ b)) ++ w2)) (by rw [hw]; rfl)
        have htrue : hasDGFrom (w1' ++ ((c :: (a ++ b)) ++ w2)) (decide (x = '\n')) = true := by
          have hshape : w1' ++ ((c :: (a ++ b)) ++ w2) = (w1' ++ (c :: a)) ++ (b ++ w2) := by
            simp [List.append_assoc]
          rw [hshape]
          refine hasDGFrom_of_decomp (w1' ++ (c :: a)) (b ++ w2) _ ?_
            (isPrefixOf_append_ext _ _ _ hb)
          rw [List.getLast?_append_of_ne_nil _ (fun hc => List.noConfusion hc)]
          cases a with
          | nil => exact absurd rfl hane
          | cons y a' =>
            rw [List.getLast?_cons_cons]
            exact hl
        rw [hp'] at htrue
        exact Bool.noConfusion htrue

/-- Every segment produced by `split_diff` re-splits to itself. -/
theorem split_diff_stable (d : List Char) :
    ∀ s, s ∈ split_diff d → split_diff s = [s] := by
  intro s hs
  rw [split_diff] at hs
  obtain ⟨hmem, hne⟩ := List.mem_filter.mp hs
  obtain ⟨p, hp, rfl⟩ := List.mem_map.mp hmem
  have hsne : pyStrip p ≠ [] := by simpa using hne
  have hinner := pyStrip_inner p (fun c r hpc => splitDGCore_inner d true p hp c r hpc)
  cases hsp : pyStrip p with
  | nil => exact absurd hsp hsne
  | cons c r =>
    have hin : hasDGFrom r (c = '\n') = false := hinner c r hsp
    have hidem := pyStrip_idem p
    have hst : pyStrip (c :: r) = c :: r := by
      rw [← hsp]
      exact hidem
    rw [split_diff]
    cases hpf : dgMarker.isPrefixOf (c :: r) with
    | false =>
      have hno : hasDGFrom (c :: r) true = false := by
        rw [hasDGFrom_cons, Bool.true_and, hpf, hin]
        rfl
      rw [splitDGCore_no_split (c :: r) true hno]
      simp [hst]
    | true =>
      rw [splitDGCore_cons, splitDGCore_no_split r (c = '\n') hin]
      rw [show (true && dgMarker.isPrefixOf (c :: r)) = true from by rw [hpf, Bool.true_and]]
      simp [hst, show pyStrip [] = [] from rfl]

set_option maxRecDepth 8192 in
/-- Claim C5, counterexample.  Two canonical segments (each one a fixed
point of `split_diff`, neither oversized) are packed by
`prepare_file_diffs` into one batch; re-splitting that batch's text yields
a single merged block, not the two packed segments: the segments were
stripped of trailing newlines, so the second `diff --git` header is not at
a line start in the concatenation and the split cannot see the boundary. -/
theorem split_diff_c5_counterexample :
    prepare_file_diffs [("diff --git a/a\n-x").data, ("diff --git a/b\n-y").data] =
      [("diff --git a/a\n-x").data ++ ("diff --git a/b\n-y").data] ∧
    split_diff (("diff --git a/a\n-x").data) = [("diff --git a/a\n-x").data] ∧
    split_diff (("diff --git a/b\n-y").data) = [("diff --git a/b\n-y").data] ∧
    split_diff (("diff --git a/a\n-x").data ++ ("diff --git a/b\n-y").data) =
      [("diff --git a/a\n-x").data ++ ("diff --git a/b\n-y").data] ∧
    [("diff --git a/a\n-x").data ++ ("diff --git a/b\n-y").data] ≠
      [("diff --git a/a\n-x").data, ("diff --git a/b\n-y").data] := by
  exact ⟨by decide, by decide, by decide, by decide, by decide⟩

/-- Claim C5 (amended): the pack-then-resplit round trip holds exactly for
single-segment batches: for every segment `s` produced by `split_diff`
that is not oversized, `prepare_file_diffs [s]` is the single batch `[s]`
and re-splitting that batch yields `[s]` again.  As soon as a batch packs
two or more segments the round trip fails (see the counterexample),
because packed segments are stripped of trailing newlines, so the next
segment's `diff --git` header no longer begins a line. -/
theorem split_diff_roundtrip_single (d s : List Char)
    (hs : s ∈ split_diff d) (hsize : string_is_too_large s = false) :
    prepare_file_diffs [s] = [s] ∧
    ∀ b ∈ prepare_file_diffs [s], split_diff b = [s] := by
  have hfds : file_diff_simplified s = s := by
    rw [file_diff_simplified, if_neg (by rw [hsize]; exact Bool.false_ne_true)]
  have h1 : prepare_file_diffs [s] = [s] := by
    show ((([s]).foldl prepStep ([], [])).1 ++ [(([s]).foldl prepStep ([], [])).2]) = [s]
    rw [List.foldl_cons, List.foldl_nil, prepStep_eq, hfds]
    rw [show (([] : List Char) ++ s) = s from List.nil_append s]
    rw [if_neg (by rw [hsize]; exact Bool.false_ne_true)]
    rfl
  refine ⟨h1, ?_⟩
  intro b hb
  rw [h1] at hb
  rcases List.mem_cons.mp hb with rfl | hb
  · exact split_diff_stable d b hs
  · exact absurd hb (List.not_mem_nil b)

/-- Claim C5, witness: a one-file diff splits into one segment, packs into
one batch and re-splits to the same segment. -/
theorem split_diff_roundtrip_single_witness :
    prepare_file_diffs [("diff --git a/a\n-x").data] = [("diff --git a/a\n-x").data] :=
  (split_diff_roundtrip_single (("diff --git a/a\n-x\n").data) _
    (by decide) (by decide)).1

end GitlabCISummarizer